import Mathlib

/-
Verification of the papertrail-ai-backend streaming-claim pipeline.

The development shallowly embeds the Python source:
  * `core/streaming.py`   (make_live_stream, _one_page, _merge_verification)
  * `service/paper_service.py` (PaperService.stream_claims)
  * `repository/job_repository.py` (put, set_status, save_parse_progress,
    get_progress_snapshot)
  * `core/pdf_text.py`    (extract_pages_texts, _greedy_para_split,
    extract_pdf_chunks)

Async generators become pure functions producing a list of `Action`s (effects
and emitted wire events); the nondeterministic completion order of the
extraction worker pool is an explicit `order` parameter; the external LLM and
the key-value store are oracles/parameters.  Collaborator modules that are not
part of the source tree (the claim-buffer/blob/verification repositories, the
Anthropic client normalization, util.functions.stream_merge_saved, and the
phase-aware revision of the job repository used by the orchestrator) are
modelled from the specification; each such definition says so in its doc
comment.

Python strings are modelled over `List Char` so that every definition is
kernel-computable; `pyStripChars`, `pyLower`, `pyInt?`, `pySplitNl` model the
Python primitives `str.strip`, `str.lower`, `int(str)` and `str.split("\n")`.
-/

namespace Papertrail

/-! ### Python string primitives, over `List Char` -/

/-- Whitespace test used by the Python `str.strip` model. -/
def isWs (c : Char) : Bool := c.isWhitespace

/-- Models Python `str.strip()` on the character list: removes leading and
trailing whitespace. -/
def pyStripChars (l : List Char) : List Char :=
  ((l.dropWhile isWs).reverse.dropWhile isWs).reverse

/-- Models Python `str.strip()` on strings. -/
def pyStrip (s : String) : String := String.mk (pyStripChars s.data)

/-- Models Python `str.lower()` (on the ASCII range used by the code). -/
def pyLower (s : String) : String := String.mk (s.data.map Char.toLower)

/-- Numeric value of a digit list, most significant first. -/
def digitsVal (l : List Char) : Nat :=
  l.foldl (fun n c => n * 10 + (c.toNat - Char.toNat '0')) 0

/-- Models Python `int(str)`: optional surrounding whitespace, an optional
sign, then one or more decimal digits; anything else raises, modelled as
`none`. -/
def pyInt? (s : String) : Option Int :=
  match pyStripChars s.data with
  | [] => none
  | '-' :: ds =>
    if ds.isEmpty then none
    else if ds.all Char.isDigit then some (-(digitsVal ds : Int)) else none
  | '+' :: ds =>
    if ds.isEmpty then none
    else if ds.all Char.isDigit then some (digitsVal ds : Int) else none
  | ds =>
    if ds.all Char.isDigit then some (digitsVal ds : Int) else none

/-- Models Python `"\n".split` behaviour: split a character list at every
newline (an empty input yields one empty piece, as in Python). -/
def pySplitNlGo (cur : List Char) : List Char → List (List Char)
  | [] => [cur.reverse]
  | c :: rest =>
    if c = '\n' then cur.reverse :: pySplitNlGo [] rest
    else pySplitNlGo (c :: cur) rest

/-- Models Python `text.split("\n")`. -/
def pySplitNl (l : List Char) : List (List Char) := pySplitNlGo [] l

/-- Models Python `"\n".join` on character lists. -/
def joinNl : List (List Char) → List Char
  | [] => []
  | [x] => x
  | x :: rest => x ++ '\n' :: joinNl rest

/-- Python truthiness of an optional string (`None` and `""` are falsy),
with a default, i.e. the `a or b` idiom of the source. -/
def pyOr (o : Option String) (d : String) : String :=
  match o with
  | none => d
  | some s => if s.isEmpty then d else s

/-- Models Python `enumerate(xs, start := k)`. -/
def withIdx (k : Nat) : List α → List (Nat × α)
  | [] => []
  | a :: l => (k, a) :: withIdx (k + 1) l

/-! ### Extraction-worker text normalization -/

/-- Drop the final (possibly cut-off) word of a character list: remove the
maximal trailing run of non-whitespace characters. -/
def dropLastWord (l : List Char) : List Char :=
  (l.reverse.dropWhile (fun c => !(isWs c))).reverse

/-- Word-boundary truncation to at most `limit` characters: a short input is
returned unchanged; a long one is cut at `limit` and the trailing partial
word is removed (kept whole-cut if no word boundary exists in the prefix). -/
def wordCut (l : List Char) (limit : Nat) : List Char :=
  if l.length ≤ limit then l
  else
    let pre := l.take limit
    let cut := dropLastWord pre
    if cut.isEmpty then pre else cut

/-- Modelled from the spec: the claim-text normalization of the missing
`core/anthropic_client.extract_claims_from_page` — the text is trimmed, an
empty result drops the claim, and longer texts are truncated at a word
boundary to at most 280 characters. -/
def normalizeText (s : String) : Option String :=
  let t := pyStripChars s.data
  if t.isEmpty then none
  else some (String.mk (pyStripChars (wordCut t 280)))

/-- A parsed NDJSON line of the LLM extraction response: the three optional
fields of one JSON object. -/
structure RawLine where
  id? : Option String
  text? : Option String
  status? : Option String
deriving DecidableEq

/-- A claim normalized by the (missing) Anthropic client: the text is present
and already normalized. -/
structure NormClaim where
  id? : Option String
  text : String
  status? : Option String
deriving DecidableEq

/-- Modelled from the spec: the missing
`core/anthropic_client.extract_claims_from_page` parses the NDJSON body (the
`llm` oracle yields the parsed lines), keeps at most 8 items per page, and
keeps only claims whose normalized text is non-empty. -/
def extractClaimsFromPage (llm : Nat → String → List RawLine)
    (pn : Nat) (pageText : String) : List NormClaim :=
  ((llm pn pageText).take 8).filterMap fun r =>
    match r.text? with
    | none => none
    | some t => (normalizeText t).map fun t2 => { id? := r.id?, text := t2, status? := r.status? }

/-! ### Wire model: claims, events, actions -/

/-- The claim dictionary built by `_one_page` in `core/streaming.py`, also
the shape of buffered and emitted claims. -/
structure ClaimRec where
  id : String
  text : String
  status : String
  verdict : Option String := none
  confidence : Option String := none
  reasoningMd : Option String := none
  suggestions : List String := []
  sourceUploaded : Bool := false
deriving DecidableEq

/-- Default claim id `p{page}_{n}` of `_one_page`. -/
def defaultClaimId (pn n : Nat) : String :=
  "p" ++ toString pn ++ "_" ++ toString n

/-- The body of `_one_page` in `core/streaming.py`: each normalized claim
becomes a dictionary, a falsy `id` defaults to `p{pn}_{len(out)+1}` and a
falsy `status` defaults to `"uncited"`; `k` is the length of the accumulator
`out` so far. -/
def onePageGo (pn : Nat) (k : Nat) : List NormClaim → List ClaimRec
  | [] => []
  | c :: rest =>
    { id := pyOr c.id? (defaultClaimId pn (k + 1))
      text := c.text
      status := pyOr c.status? "uncited" } :: onePageGo pn (k + 1) rest

/-- `_one_page` of `core/streaming.py` after the LLM call: normalize the
page's claims into dictionaries. -/
def onePage (pn : Nat) (ncs : List NormClaim) : List ClaimRec := onePageGo pn 0 ncs

/-- Progress phases of the pipeline. -/
inductive Phase where
  | parse
  | extract
deriving DecidableEq

/-- The `progress` payload `{phase, processed, total, ts}`. -/
structure ProgressPayload where
  phase : Phase
  processed : Nat
  total : Nat
  ts : Nat
deriving DecidableEq

/-- Modelled from the spec: the verification record stored by the missing
`repository/verification_repository.py`; the numeric confidence is kept
opaque as its stored representation. -/
structure Verification where
  verdict : String
  confidence : String
  reasoningMd : String
deriving DecidableEq

/-- NDJSON wire events of the stream. -/
inductive Event where
  | progress (p : ProgressPayload)
  | claim (c : ClaimRec)
  | error (message : String)
  | done
deriving DecidableEq

/-- The observable steps of one stream connection: wire emissions plus the
effects on the key-value store and the LLM. -/
inductive Action where
  | emit (e : Event)
  | llmCall (page : Nat)
  | bufferAppend (c : ClaimRec)
  | savePhase (phase : Phase) (processed total : Nat)
  | touchJob
  | touchBuffer
deriving DecidableEq

/-- The events visible on the wire, in emission order. -/
def wire (acts : List Action) : List Event :=
  acts.filterMap fun a =>
    match a with
    | Action.emit e => some e
    | _ => none

/-- Modelled from the spec: the missing `util.functions.stream_merge_saved`
overlays a stored verification onto the emitted claim payload — `verdict`,
`confidence`, `reasoningMd` are copied and `sourceUploaded` is set. -/
def streamMergeSaved (merged : ClaimRec) (saved : Verification) : ClaimRec :=
  { merged with
    verdict := some saved.verdict
    confidence := some saved.confidence
    reasoningMd := some saved.reasoningMd
    sourceUploaded := true }

/-- `_merge_verification` of `core/streaming.py`: skip empty ids, otherwise
overlay a saved verification if one exists. -/
def mergeVerification (verif : String → Option Verification) (c : ClaimRec) : ClaimRec :=
  if c.id = "" then c
  else
    match verif c.id with
    | none => c
    | some v => streamMergeSaved c v

/-- The replay merge of `PaperService.stream_claims`: overlay a saved
verification if one exists. -/
def replayMerge (verif : String → Option Verification) (c : ClaimRec) : ClaimRec :=
  match verif c.id with
  | none => c
  | some v => streamMergeSaved c v

/-- `_emit_phase_progress` of `core/streaming.py`: persist the phase progress
snapshot, then emit the progress event. -/
def phaseProgressActions (phase : Phase) (processed total ts : Nat) : List Action :=
  [Action.savePhase phase processed total,
   Action.emit (Event.progress { phase := phase, processed := processed, total := total, ts := ts })]

/-- The `as_completed` loop of `make_live_stream`: for each completed page —
its LLM call, a job-TTL touch, then for each claim not in the skip set an
append to the buffer followed by the claim emission, then the extract-phase
progress step.  `order` is the completion order of the spawned page tasks,
`finishedPages` the running counter. -/
def extractLoop (verif : String → Option Verification) (llm : Nat → String → List RawLine)
    (skip : List String) (total ts : Nat) :
    List (Nat × String) → Nat → List Action
  | [], _ => []
  | (pn, txt) :: rest, finishedPages =>
    Action.llmCall pn :: Action.touchJob ::
      ((onePage pn (extractClaimsFromPage llm pn txt)).flatMap fun c =>
        if skip.contains c.id then []
        else [Action.bufferAppend c, Action.emit (Event.claim (mergeVerification verif c))])
      ++ phaseProgressActions Phase.extract (finishedPages + 1) total ts
      ++ extractLoop verif llm skip total ts rest (finishedPages + 1)

/-- `make_live_stream` of `core/streaming.py`: the optional parse-phase
ladder 0..N, the concurrent extract phase in completion order, then the done
event. -/
def makeLiveStream (pages : List (Nat × String)) (skip : List String)
    (emitParse : Bool) (extractStart : Nat)
    (verif : String → Option Verification) (llm : Nat → String → List RawLine)
    (order : List (Nat × String)) (ts : Nat) : List Action :=
  let total := pages.length
  (if emitParse then
    (List.range (total + 1)).flatMap fun i => phaseProgressActions Phase.parse i total ts
   else [])
  ++ extractLoop verif llm skip total ts order extractStart
  ++ [Action.emit Event.done]

/-- `extract_pages_texts` of `core/pdf_text.py`.  The PyMuPDF reader is the
external boundary: `doc = none` models an open/parse failure (the function
returns `[]`), `doc = some texts` the raw text of each page; page numbers are
1-based and each page text is stripped. -/
def extractPagesTexts (doc : Option (List String)) : List (Nat × String) :=
  match doc with
  | none => []
  | some texts => (withIdx 1 texts).map fun it => (it.1, pyStrip it.2)

/-- The state one `stream_claims` connection starts from, with the missing
collaborator repositories modelled as the values they would return:
`jobPresent` is whether `jobs.get` finds the job, `status` the resolved
status, `snap` the (phase-aware, spec-modelled) progress snapshot, `buffered`
the ordered claim buffer, `blob` the stored PDF (`none` when absent or
empty) together with its reader outcome, `verif` the verification store,
`llm` the parsed LLM responses, `order` the completion order of page tasks
and `ts` the wall clock. -/
structure StreamInput where
  jobPresent : Bool
  status : String
  snap : Option ProgressPayload
  buffered : List ClaimRec
  blob : Option (Option (List String))
  verif : String → Option Verification
  llm : Nat → String → List RawLine
  order : List (Nat × String)
  ts : Nat

/-- The snapshot emission of `stream_claims`: emitted only when present with
a positive total. -/
def snapActions (snap : Option ProgressPayload) : List Action :=
  match snap with
  | none => []
  | some p => if 0 < p.total then [Action.emit (Event.progress p)] else []

/-- The wire shape of the snapshot emission when the snapshot honours the
repository contract (positive total when present). -/
def snapEvents (snap : Option ProgressPayload) : List Event :=
  match snap with
  | none => []
  | some p => [Event.progress p]

/-- The replay loop of `stream_claims`: for each buffered claim, a buffer
TTL touch and the claim emission with the verification overlay. -/
def replayActions (verif : String → Option Verification) (buffered : List ClaimRec) :
    List Action :=
  buffered.flatMap fun c =>
    [Action.touchBuffer, Action.emit (Event.claim (replayMerge verif c))]

/-- The `emit_parse` decision of `stream_claims`: suppress the parse ladder
exactly when a snapshot exists with phase `extract`. -/
def computeEmitParse (snap : Option ProgressPayload) : Bool :=
  match snap with
  | none => true
  | some p => if p.phase = Phase.extract then false else true

/-- The `.lower() == "finished"` status test of `stream_claims`. -/
def isFinishedStatus (s : String) : Bool := pyLower s = "finished"

/-- `PaperService.stream_claims` of `service/paper_service.py`: unknown job
→ error+done; otherwise snapshot, replay, the finished short-circuit, the
missing/empty-blob and empty-pages short-circuits, then the live stream with
the buffered ids as skip set.  Note the live stream is started with
`extractStart = 0`: the source does not pass `extract_start_processed`. -/
def streamClaims (inp : StreamInput) : List Action :=
  if inp.jobPresent = false then
    [Action.emit (Event.error "Unknown or expired jobId"), Action.emit Event.done]
  else
    let pre := snapActions inp.snap ++ replayActions inp.verif inp.buffered
    if isFinishedStatus inp.status then pre ++ [Action.emit Event.done]
    else
      match inp.blob with
      | none => pre ++ [Action.emit Event.done]
      | some doc =>
        let pages := extractPagesTexts doc
        if pages.isEmpty then pre ++ [Action.emit Event.done]
        else
          pre ++ makeLiveStream pages (inp.buffered.map ClaimRec.id)
            (computeEmitParse inp.snap) 0 inp.verif inp.llm inp.order inp.ts

/-! ### Job repository (`repository/job_repository.py`) -/

/-- The Redis hash under `jobs:{id}`: every field is stored as an optional
string, exactly the fields the source reads and writes. -/
structure JobHash where
  id : Option String := none
  status : Option String := none
  phase : Option String := none
  processed : Option String := none
  total : Option String := none
  progress_processed : Option String := none
  progress_total : Option String := none
  progress_ts : Option String := none
deriving DecidableEq

/-- The stored entry for one `jobs:{id}` key: the hash plus the remaining
TTL set by the last `expire`. -/
structure JobEntry where
  hash : JobHash
  ttl : Nat
deriving DecidableEq

/-- The `Job` model persisted by `put`. -/
structure Job where
  id : String
  status : String
  processed : Nat
  total : Nat
deriving DecidableEq

/-- The hash a write starts from: the existing one, or a fresh empty hash
when the key is absent (Redis `hset` creates the key). -/
def baseHash (st : Option JobEntry) : JobHash :=
  match st with
  | none => {}
  | some e => e.hash

/-- `JobRepository.put`: `hset` of id/status/processed/total followed by
`expire` with the repository TTL. -/
def JobRepository.put (st : Option JobEntry) (job : Job) (ttl : Nat) : Option JobEntry :=
  some
    { hash :=
        { baseHash st with
          id := some job.id
          status := some job.status
          processed := some (toString job.processed)
          total := some (toString job.total) }
      ttl := ttl }

/-- `JobRepository.set_status`: `hset` of the status field followed by
`expire`. -/
def JobRepository.setStatus (st : Option JobEntry) (status : String) (ttl : Nat) :
    Option JobEntry :=
  some { hash := { baseHash st with status := some status }, ttl := ttl }

/-- `JobRepository.save_parse_progress`: `hset` of the parse snapshot fields
(with the top-level processed/total mirror) followed by `expire`; `now` is
`int(time.time())`. -/
def JobRepository.saveParseProgress (st : Option JobEntry) (processed total : Int)
    (now : Nat) (ttl : Nat) : Option JobEntry :=
  some
    { hash :=
        { baseHash st with
          phase := some "parse"
          progress_processed := some (toString processed)
          progress_total := some (toString total)
          progress_ts := some (toString now)
          processed := some (toString processed)
          total := some (toString total) }
      ttl := ttl }

/-- The remaining TTL of a stored entry. -/
def ttlOf (st : Option JobEntry) : Option Nat := st.map JobEntry.ttl

/-- The snapshot dictionary returned by
`JobRepository.get_progress_snapshot`. -/
structure SnapshotSrc where
  phase : String
  processed : Int
  total : Int
  ts : Int
deriving DecidableEq

/-- `JobRepository.get_progress_snapshot`: `none` for a missing key; `none`
unless the stored phase is exactly `"parse"`; the numeric fields default to
`"0"` when falsy and any `int()` failure yields `none` (the `except` block);
a falsy `progress_ts` falls back to the current time. -/
def JobRepository.getProgressSnapshot (st : Option JobEntry) (now : Nat) :
    Option SnapshotSrc :=
  match st with
  | none => none
  | some e =>
    if e.hash.phase = some "parse" then
      match pyInt? (pyOr e.hash.progress_processed "0") with
      | none => none
      | some processed =>
        match pyInt? (pyOr e.hash.progress_total "0") with
        | none => none
        | some total =>
          match e.hash.progress_ts with
          | none => some { phase := "parse", processed := processed, total := total, ts := (now : Int) }
          | some raw =>
            if raw.isEmpty then
              some { phase := "parse", processed := processed, total := total, ts := (now : Int) }
            else
              match pyInt? raw with
              | none => none
              | some ts => some { phase := "parse", processed := processed, total := total, ts := ts }
    else none

/-! ### PDF chunking (`core/pdf_text.py`) -/

/-- The derived `PdfChunk` entity; `sect` models the Python `section`
field (a Lean keyword). -/
structure PdfChunk where
  page : Nat
  sect : Option String
  paragraph : Option Nat
  text : String
deriving DecidableEq

/-- The greedy accumulation loop of `_greedy_para_split`: `buf` is the open
chunk, `size` its running size, `chunks` the finished chunks. -/
def greedyGo (maxChars : Nat) :
    List (List Char) → List (List Char) → Nat → List (List Char) → List (List Char)
  | [], buf, _, chunks => if buf.isEmpty then chunks else chunks ++ [joinNl buf]
  | p :: rest, buf, size, chunks =>
    if maxChars < size + p.length + 1 && !buf.isEmpty then
      greedyGo maxChars rest [p] p.length (chunks ++ [joinNl buf])
    else
      greedyGo maxChars rest (buf ++ [p]) (size + p.length + 1) chunks

/-- `_greedy_para_split` of `core/pdf_text.py`: split on newlines, strip and
drop empty paragraphs, then group greedily up to `maxChars`. -/
def greedyParaSplit (text : String) (maxChars : Nat) : List String :=
  let paras := (pySplitNl text.data).filterMap fun p =>
    let t := pyStripChars p
    if t.isEmpty then none else some t
  if paras.isEmpty then []
  else (greedyGo maxChars paras [] 0 []).map String.mk

/-- The placeholder chunk returned when nothing could be extracted. -/
def placeholderChunk : PdfChunk := { page := 1, sect := none, paragraph := none, text := "" }

/-- `extract_pdf_chunks` of `core/pdf_text.py`: page-aware paragraph
chunking with a single placeholder chunk when no page or no paragraph chunk
is available. -/
def extractPdfChunks (doc : Option (List String)) (maxChars : Nat) : List PdfChunk :=
  let pages := extractPagesTexts doc
  if pages.isEmpty then [placeholderChunk]
  else
    let out := pages.flatMap fun pt =>
      (withIdx 1 (greedyParaSplit pt.2 maxChars)).map fun jc =>
        { page := pt.1, sect := none, paragraph := some jc.1, text := jc.2 }
    if out.isEmpty then [placeholderChunk] else out

/-! ### Trace observations and checkers -/

/-- Is this event a claim event carrying the given id? -/
def isClaimWithId (i : String) (e : Event) : Bool :=
  match e with
  | Event.claim c => c.id == i
  | _ => false

/-- How many claim events with the given id a wire trace carries. -/
def claimIdCount (i : String) (evts : List Event) : Nat :=
  evts.countP (isClaimWithId i)

/-- Temporal checker for buffer-before-emit: walk the action trace keeping
the set of ids appended so far; every claim emission must carry an id
already appended. -/
def appendedOk : List String → List Action → Bool
  | _, [] => true
  | seen, a :: rest =>
    match a with
    | Action.bufferAppend c => appendedOk (c.id :: seen) rest
    | Action.emit (Event.claim c) => seen.contains c.id && appendedOk seen rest
    | _ => appendedOk seen rest

/-- The `(phase, processed, total)` triple of a progress event. -/
def progressOf (e : Event) : Option (Phase × Nat × Nat) :=
  match e with
  | Event.progress p => some (p.phase, p.processed, p.total)
  | _ => none

/-- All progress triples of a wire trace, in order. -/
def progressTriples (evts : List Event) : List (Phase × Nat × Nat) :=
  evts.filterMap progressOf

/-- Boolean pairwise checker: `r` holds of every ordered pair of positions. -/
def pairwiseOkB (r : α → α → Bool) : List α → Bool
  | [] => true
  | a :: l => l.all (r a) && pairwiseOkB r l

/-- Same-phase monotonicity of a pair of progress triples. -/
def samePhaseMono (a b : Phase × Nat × Nat) : Bool :=
  if a.1 = b.1 then decide (a.2.1 ≤ b.2.1) else true

/-- Phase order of a pair of progress triples: parse never after extract. -/
def phasePairOk (a b : Phase × Nat × Nat) : Bool :=
  match a.1, b.1 with
  | Phase.extract, Phase.parse => false
  | _, _ => true

/-- A pair of progress triples satisfies both C4 pair conditions. -/
def progressStepOk (a b : Phase × Nat × Nat) : Bool :=
  samePhaseMono a b && phasePairOk a b

/-- Every progress event is bounded by its total. -/
def boundedOk (evts : List Event) : Bool :=
  (progressTriples evts).all fun t => decide (t.2.1 ≤ t.2.2)

/-- The full progress property claimed for one connection: pairwise
same-phase monotonicity and phase order, plus boundedness. -/
def c4Ok (evts : List Event) : Bool :=
  pairwiseOkB progressStepOk (progressTriples evts) && boundedOk evts

/-- Phase order alone, over a whole wire trace. -/
def noParseAfterExtractOk (evts : List Event) : Bool :=
  pairwiseOkB phasePairOk (progressTriples evts)

/-- The processed value of the first extract-phase progress event. -/
def firstExtractProcessed (evts : List Event) : Option Nat :=
  (progressTriples evts).findSome? fun t =>
    match t.1 with
    | Phase.extract => some t.2.1
    | Phase.parse => none

/-- All extract-phase processed values, in emission order. -/
def extractProcessedValues (evts : List Event) : List Nat :=
  (progressTriples evts).filterMap fun t =>
    match t.1 with
    | Phase.extract => some t.2.1
    | Phase.parse => none

/-- Actions allowed on a finished-job connection: wire emissions and
buffer-TTL touches — no LLM call, no append, no progress persistence, no job
touch. -/
def isPassiveAction (a : Action) : Bool :=
  match a with
  | Action.emit _ => true
  | Action.touchBuffer => true
  | _ => false

/-- Is this the done event? -/
def isDoneEvent (e : Event) : Bool :=
  match e with
  | Event.done => true
  | _ => false

/-- Is this an error event? -/
def isErrorEvent (e : Event) : Bool :=
  match e with
  | Event.error _ => true
  | _ => false

/-! ### Concrete states used by witnesses and counterexamples -/

/-- A buffered claim used by the concrete states. -/
def claimA : ClaimRec := { id := "a", text := "T1", status := "cited" }

/-- An LLM oracle returning, for every page, one claim colliding with the
buffered id `a` and one fresh claim `b`. -/
def llmAB : Nat → String → List RawLine :=
  fun _ _ =>
    [{ id? := some "a", text? := some "T1 again", status? := some "cited" },
     { id? := some "b", text? := some "T2", status? := some "uncited" }]

/-- An LLM oracle returning no claims. -/
def llmNone : Nat → String → List RawLine := fun _ _ => []

/-- An empty verification store. -/
def verifNone : String → Option Verification := fun _ => none

/-- Reconnect state for the C1 witness: job streaming, claim `a` buffered,
one page whose extraction returns `a` (to be skipped) and `b`. -/
def sampleC1Input : StreamInput :=
  { jobPresent := true
    status := "streaming"
    snap := none
    buffered := [claimA]
    blob := some (some ["page one text"])
    verif := verifNone
    llm := llmAB
    order := [(1, "page one text")]
    ts := 3 }

/-- Finished-job state for the C3 witness. -/
def sampleC3Input : StreamInput :=
  { jobPresent := true
    status := "finished"
    snap := some { phase := Phase.extract, processed := 2, total := 2, ts := 9 }
    buffered := [claimA]
    blob := some (some ["page one text"])
    verif := verifNone
    llm := llmAB
    order := [(1, "page one text")]
    ts := 4 }

/-- Reconnect state refuting C4 as stated: the persisted snapshot says
parse 2/2, the replayed parse ladder restarts at 0, so the connection
carries progress(parse,2) followed by progress(parse,0). -/
def sampleC4Input : StreamInput :=
  { jobPresent := true
    status := "streaming"
    snap := some { phase := Phase.parse, processed := 2, total := 2, ts := 11 }
    buffered := []
    blob := some (some ["pg one", "pg two"])
    verif := verifNone
    llm := llmNone
    order := [(1, "pg one"), (2, "pg two")]
    ts := 12 }

/-- Missing-blob state refuting C5 as stated: the job exists but its PDF
blob is gone; the stream ends with done and no error event. -/
def sampleC5Input : StreamInput :=
  { jobPresent := true
    status := "streaming"
    snap := none
    buffered := []
    blob := none
    verif := verifNone
    llm := llmNone
    order := []
    ts := 0 }

/-- Unknown-job state for the C5 witness. -/
def sampleC5UnknownInput : StreamInput :=
  { jobPresent := false
    status := ""
    snap := none
    buffered := []
    blob := none
    verif := verifNone
    llm := llmNone
    order := []
    ts := 0 }

/-- Reconnect state refuting the extract-resume half of C6: the snapshot
says extract 2/3, yet the re-run extract ladder emits 1,2,3 — the counter
was initialized to 0, not to the snapshot's processed value. -/
def sampleC6Input : StreamInput :=
  { jobPresent := true
    status := "streaming"
    snap := some { phase := Phase.extract, processed := 2, total := 3, ts := 9 }
    buffered := []
    blob := some (some ["pg one", "pg two", "pg three"])
    verif := verifNone
    llm := llmNone
    order := [(1, "pg one"), (2, "pg two"), (3, "pg three")]
    ts := 10 }

/-- An LLM response for the C7 witness: an untrimmed text with neither id
nor status. -/
def llmC7 : Nat → String → List RawLine :=
  fun _ _ => [{ id? := none, text? := some "  Hello world  ", status? := none }]

/-- The store state refuting C8 as stated: a parse snapshot persisted with
total 0 is returned as a dictionary, not as None. -/
def sampleC8Store : Option JobEntry :=
  JobRepository.saveParseProgress none 3 0 5 77

/-- A well-formed stored hash for the C8 witness. -/
def sampleC8Entry : JobEntry :=
  { hash :=
      { phase := some "parse"
        progress_processed := some "4"
        progress_total := some "9"
        progress_ts := some "21" }
    ttl := 30 }

/-- Reader outcome for the C10 witness: two pages, the second blank. -/
def sampleC10Doc : Option (List String) := some ["para one\n\npara two", "   "]

/-- The second chunk extracted from `sampleC10Doc` at a 10-character chunk
budget. -/
def sampleC10Chunk : PdfChunk :=
  { page := 1, sect := none, paragraph := some 2, text := "para two" }

/-- No leading or trailing whitespace. -/
def noEdgeWs (l : List Char) : Bool :=
  (match l.head? with
   | some c => !isWs c
   | none => true) &&
  (match l.getLast? with
   | some c => !isWs c
   | none => true)

/-! ### Helper lemmas: traces -/

theorem wire_append (a b : List Action) : wire (a ++ b) = wire a ++ wire b :=
  List.filterMap_append a b _

theorem progressTriples_append (a b : List Event) :
    progressTriples (a ++ b) = progressTriples a ++ progressTriples b :=
  List.filterMap_append a b _

theorem streamMergeSaved_id (c : ClaimRec) (v : Verification) :
    (streamMergeSaved c v).id = c.id := rfl

theorem mergeVerification_id (v : String → Option Verification) (c : ClaimRec) :
    (mergeVerification v c).id = c.id := by
  unfold mergeVerification
  by_cases h : c.id = ""
  · simp [h]
  · rw [if_neg h]
    cases v c.id <;> rfl

theorem replayMerge_id (v : String → Option Verification) (c : ClaimRec) :
    (replayMerge v c).id = c.id := by
  unfold replayMerge
  cases v c.id <;> rfl

theorem replayActions_cons (v : String → Option Verification) (c : ClaimRec)
    (bs : List ClaimRec) :
    replayActions v (c :: bs) =
      Action.touchBuffer :: Action.emit (Event.claim (replayMerge v c)) ::
        replayActions v bs := rfl

theorem wire_replayActions (v : String → Option Verification) (bs : List ClaimRec) :
    wire (replayActions v bs) = bs.map fun c => Event.claim (replayMerge v c) := by
  induction bs with
  | nil => rfl
  | cons c bs ih =>
    simp [replayActions_cons, wire, List.filterMap_cons] at ih ⊢
    exact ih

theorem pairwiseOkB_iff (r : α → α → Bool) (l : List α) :
    pairwiseOkB r l = true ↔ l.Pairwise fun a b => r a b = true := by
  induction l with
  | nil => simp [pairwiseOkB]
  | cons a l ih => simp [pairwiseOkB, List.all_eq_true, ih, List.pairwise_cons]

theorem pairwiseOkB_append (r : α → α → Bool) (xs ys : List α) :
    pairwiseOkB r (xs ++ ys) = true ↔
      pairwiseOkB r xs = true ∧ pairwiseOkB r ys = true ∧
        ∀ x ∈ xs, ∀ y ∈ ys, r x y = true := by
  simp [pairwiseOkB_iff, List.pairwise_append]

/-! ### Helper lemmas: job repository -/

theorem ttlOf_put (st : Option JobEntry) (job : Job) (ttl : Nat) :
    ttlOf (JobRepository.put st job ttl) = some ttl := rfl

theorem ttlOf_setStatus (st : Option JobEntry) (s : String) (ttl : Nat) :
    ttlOf (JobRepository.setStatus st s ttl) = some ttl := rfl

theorem ttlOf_saveParseProgress (st : Option JobEntry) (p t : Int) (now ttl : Nat) :
    ttlOf (JobRepository.saveParseProgress st p t now ttl) = some ttl := rfl

/-! ### Claim C9 -/

/-- C9: every write operation of the Job Repository (`put`, `set_status`,
`save_parse_progress`) ends by resetting the key's TTL to the repository TTL
constant (`PERSISTENCE_TTL_SECONDS`), so after any repository write the
persisted entity carries a freshly refreshed TTL. -/
theorem repository_writes_refresh_ttl (st : Option JobEntry) (job : Job) (s : String)
    (p t : Int) (now ttl : Nat) :
    ttlOf (JobRepository.put st job ttl) = some ttl ∧
    ttlOf (JobRepository.setStatus st s ttl) = some ttl ∧
    ttlOf (JobRepository.saveParseProgress st p t now ttl) = some ttl :=
  ⟨ttlOf_put st job ttl, ttlOf_setStatus st s ttl, ttlOf_saveParseProgress st p t now ttl⟩

/-! ### Claim C8 -/

/-- C8 counterexample: a parse snapshot persisted with `total = 0` is
returned as a dictionary by `get_progress_snapshot`, not as `None`; this
refutes the claim that a stored total not greater than 0 yields `None` (the
`total > 0` filter lives in the caller, not here). -/
theorem snapshot_total_zero_counterexample :
    JobRepository.getProgressSnapshot sampleC8Store 99 =
      some { phase := "parse", processed := 3, total := 0, ts := 5 } := by decide

/-- C8 amended: `get_progress_snapshot` returns `None` when the job hash is
absent, when the stored phase is not exactly `"parse"` (in particular when no
phase is set), or when a stored numeric field fails integer parsing (it never
raises); otherwise it returns the stored dictionary
`{phase := "parse", processed, total, ts}` regardless of the stored total. -/
theorem snapshot_guards_amended :
    (∀ now : Nat, JobRepository.getProgressSnapshot none now = none) ∧
    (∀ (e : JobEntry) (now : Nat), e.hash.phase ≠ some "parse" →
      JobRepository.getProgressSnapshot (some e) now = none) ∧
    (∀ (e : JobEntry) (now : Nat), e.hash.phase = some "parse" →
      pyInt? (pyOr e.hash.progress_processed "0") = none →
      JobRepository.getProgressSnapshot (some e) now = none) ∧
    (∀ (e : JobEntry) (now : Nat) (p : Int), e.hash.phase = some "parse" →
      pyInt? (pyOr e.hash.progress_processed "0") = some p →
      pyInt? (pyOr e.hash.progress_total "0") = none →
      JobRepository.getProgressSnapshot (some e) now = none) ∧
    (∀ (e : JobEntry) (now : Nat) (p t : Int) (raw : String), e.hash.phase = some "parse" →
      pyInt? (pyOr e.hash.progress_processed "0") = some p →
      pyInt? (pyOr e.hash.progress_total "0") = some t →
      e.hash.progress_ts = some raw → raw.isEmpty = false → pyInt? raw = none →
      JobRepository.getProgressSnapshot (some e) now = none) ∧
    (∀ (e : JobEntry) (now : Nat) (p t ts : Int) (raw : String), e.hash.phase = some "parse" →
      pyInt? (pyOr e.hash.progress_processed "0") = some p →
      pyInt? (pyOr e.hash.progress_total "0") = some t →
      e.hash.progress_ts = some raw → raw.isEmpty = false → pyInt? raw = some ts →
      JobRepository.getProgressSnapshot (some e) now =
        some { phase := "parse", processed := p, total := t, ts := ts }) := by
  refine ⟨fun now => rfl, ?_, ?_, ?_, ?_, ?_⟩
  · intro e now h
    simp [JobRepository.getProgressSnapshot, h]
  · intro e now h h2
    simp [JobRepository.getProgressSnapshot, h, h2]
  · intro e now p h h2 h3
    simp [JobRepository.getProgressSnapshot, h, h2, h3]
  · intro e now p t raw h h2 h3 h4 h5 h6
    simp [JobRepository.getProgressSnapshot, h, h2, h3, h4, h5, h6]
  · intro e now p t ts raw h h2 h3 h4 h5 h6
    simp [JobRepository.getProgressSnapshot, h, h2, h3, h4, h5, h6]

/-- Witness for the amended C8 theorem at a concrete well-formed hash. -/
theorem snapshot_guards_amended_witness :
    JobRepository.getProgressSnapshot (some sampleC8Entry) 0 =
      some { phase := "parse", processed := 4, total := 9, ts := 21 } :=
  snapshot_guards_amended.2.2.2.2.2 sampleC8Entry 0 4 9 21 "21" rfl (by decide) (by decide)
    rfl (by decide) (by decide)

/-! ### Helper lemmas: indexed enumeration -/

theorem withIdx_length (k : Nat) (l : List α) : (withIdx k l).length = l.length := by
  induction l generalizing k with
  | nil => rfl
  | cons a l ih => simp [withIdx, ih]

theorem mem_withIdx_bounds (k : Nat) (l : List α) (x : Nat × α) (h : x ∈ withIdx k l) :
    k ≤ x.1 ∧ x.1 < k + l.length := by
  induction l generalizing k with
  | nil => simp [withIdx] at h
  | cons a l ih =>
    simp only [withIdx, List.mem_cons] at h
    rcases h with h | h
    · subst h
      simp
    · have := ih (k + 1) h
      constructor
      · omega
      · simp only [List.length_cons]
        omega

theorem mem_withIdx_snd (k : Nat) (l : List α) (x : Nat × α) (h : x ∈ withIdx k l) :
    x.2 ∈ l := by
  induction l generalizing k with
  | nil => simp [withIdx] at h
  | cons a l ih =>
    simp only [withIdx, List.mem_cons] at h
    rcases h with h | h
    · subst h
      simp
    · exact List.mem_cons_of_mem a (ih (k + 1) h)

theorem pagesTexts_bounds (doc : Option (List String)) (pt : Nat × String)
    (h : pt ∈ extractPagesTexts doc) :
    1 ≤ pt.1 ∧ pt.1 ≤ (extractPagesTexts doc).length := by
  cases doc with
  | none => simp [extractPagesTexts] at h
  | some texts =>
    simp only [extractPagesTexts, List.mem_map] at h
    obtain ⟨it, hit, heq⟩ := h
    have hb := mem_withIdx_bounds 1 texts it hit
    have hl : (extractPagesTexts (some texts)).length = texts.length := by
      simp [extractPagesTexts, withIdx_length]
    rw [hl]
    subst heq
    simpa using ⟨hb.1, by omega⟩

/-! ### Claim C10 -/

/-- C10: `extract_pdf_chunks` always returns a non-empty list; when the
reader yields no pages or no page yields a paragraph chunk, the result is
exactly the placeholder chunk (page 1, no section, no paragraph, empty
text); otherwise every chunk carries the 1-based page number of its source
page and a 1-based paragraph index within that page, with the corresponding
chunk text. -/
theorem pdf_chunks_characterization (doc : Option (List String)) (maxChars : Nat) :
    extractPdfChunks doc maxChars ≠ [] ∧
    ((∀ pt ∈ extractPagesTexts doc, greedyParaSplit pt.2 maxChars = []) →
      extractPdfChunks doc maxChars = [placeholderChunk]) ∧
    (extractPdfChunks doc maxChars ≠ [placeholderChunk] →
      ∀ c ∈ extractPdfChunks doc maxChars,
        ∃ txt j, (c.page, txt) ∈ extractPagesTexts doc ∧
          1 ≤ c.page ∧ c.page ≤ (extractPagesTexts doc).length ∧
          c.paragraph = some j ∧ (j, c.text) ∈ withIdx 1 (greedyParaSplit txt maxChars) ∧
          1 ≤ j ∧ j ≤ (greedyParaSplit txt maxChars).length ∧ c.sect = none) := by
  refine ⟨?_, ?_, ?_⟩
  · unfold extractPdfChunks
    by_cases hp : (extractPagesTexts doc).isEmpty
    · simp [hp]
    · simp only [hp, if_false]
      by_cases ho : (extractPagesTexts doc).flatMap (fun pt =>
          (withIdx 1 (greedyParaSplit pt.2 maxChars)).map fun jc =>
            ({ page := pt.1, sect := none, paragraph := some jc.1, text := jc.2 } : PdfChunk)) = []
      · simp [ho]
      · simp [ho]
  · intro hall
    unfold extractPdfChunks
    by_cases hp : (extractPagesTexts doc).isEmpty
    · simp [hp]
    · have ho : (extractPagesTexts doc).flatMap (fun pt =>
          (withIdx 1 (greedyParaSplit pt.2 maxChars)).map fun jc =>
            ({ page := pt.1, sect := none, paragraph := some jc.1, text := jc.2 } : PdfChunk)) = [] := by
        rw [List.flatMap_eq_nil_iff]
        intro pt hpt
        rw [hall pt hpt]
        rfl
      simp [hp, ho]
  · intro hne c hc
    unfold extractPdfChunks at hc
    by_cases hp : (extractPagesTexts doc).isEmpty
    · exfalso
      apply hne
      unfold extractPdfChunks
      simp [hp]
    · simp only [hp, if_false] at hc
      by_cases ho : (extractPagesTexts doc).flatMap (fun pt =>
          (withIdx 1 (greedyParaSplit pt.2 maxChars)).map fun jc =>
            ({ page := pt.1, sect := none, paragraph := some jc.1, text := jc.2 } : PdfChunk)) = []
      · exfalso
        apply hne
        unfold extractPdfChunks
        simp [hp, ho]
      · have ho3 : ((extractPagesTexts doc).flatMap fun pt =>
            (withIdx 1 (greedyParaSplit pt.2 maxChars)).map fun jc =>
              ({ page := pt.1, sect := none, paragraph := some jc.1, text := jc.2 } : PdfChunk)).isEmpty = false := by
          simp only [List.isEmpty_eq_false]
          exact ho
        rw [ho3] at hc
        simp only [Bool.false_eq_true, if_false] at hc
        rw [List.mem_flatMap] at hc
        obtain ⟨pt, hpt, hcm⟩ := hc
        rw [List.mem_map] at hcm
        obtain ⟨jc, hjc, heq⟩ := hcm
        have hb := mem_withIdx_bounds 1 (greedyParaSplit pt.2 maxChars) jc hjc
        have hlen := withIdx_length 1 (greedyParaSplit pt.2 maxChars)
        subst heq
        refine ⟨pt.2, jc.1, ?_, ?_, ?_, ?_, ?_, ?_, ?_, ?_⟩
        · simpa using hpt
        · simpa using (pagesTexts_bounds doc pt hpt).1
        · simpa using (pagesTexts_bounds doc pt hpt).2
        · rfl
        · simpa using hjc
        · exact hb.1
        · omega
        · rfl

/-- Witness for C10 on a concrete two-page document: the second paragraph
chunk of page 1 is characterized by its source page and paragraph index. -/
theorem pdf_chunks_characterization_witness :
    ∃ txt j, (sampleC10Chunk.page, txt) ∈ extractPagesTexts sampleC10Doc ∧
      1 ≤ sampleC10Chunk.page ∧
      sampleC10Chunk.page ≤ (extractPagesTexts sampleC10Doc).length ∧
      sampleC10Chunk.paragraph = some j ∧
      (j, sampleC10Chunk.text) ∈ withIdx 1 (greedyParaSplit txt 10) ∧
      1 ≤ j ∧ j ≤ (greedyParaSplit txt 10).length ∧ sampleC10Chunk.sect = none :=
  (pdf_chunks_characterization sampleC10Doc 10).2.2 (by decide) sampleC10Chunk (by decide)

/-! ### Helper lemmas: stripping and truncation -/

theorem dropWhile_head_not (p : α → Bool) (l : List α) (c : α)
    (h : (l.dropWhile p).head? = some c) : p c = false := by
  induction l with
  | nil => simp [List.dropWhile] at h
  | cons a l ih =>
    by_cases ha : p a
    · rw [List.dropWhile_cons_of_pos ha] at h
      exact ih h
    · rw [List.dropWhile_cons_of_neg ha] at h
      simp only [List.head?_cons, Option.some.injEq] at h
      subst h
      exact Bool.eq_false_iff.mpr ha

theorem dropWhile_eq_self_of_head (p : α → Bool) (l : List α) (c : α)
    (h : l.head? = some c) (hc : p c = false) : l.dropWhile p = l := by
  cases l with
  | nil => rfl
  | cons a l =>
    simp only [List.head?_cons, Option.some.injEq] at h
    subst h
    exact List.dropWhile_cons_of_neg (by simp [hc])

theorem dropWhile_length_le (p : α → Bool) (l : List α) :
    (l.dropWhile p).length ≤ l.length := by
  induction l with
  | nil => simp
  | cons a l ih =>
    by_cases ha : p a
    · rw [List.dropWhile_cons_of_pos ha]
      exact Nat.le_trans ih (Nat.le_succ _)
    · rw [List.dropWhile_cons_of_neg ha]

theorem dropTail_decomp (q : α → Bool) (m : List α) :
    m = (m.reverse.dropWhile q).reverse ++ (m.reverse.takeWhile q).reverse ∧
      ∀ c ∈ (m.reverse.takeWhile q).reverse, q c = true := by
  constructor
  · calc m = m.reverse.reverse := (List.reverse_reverse m).symm
    _ = (m.reverse.takeWhile q ++ m.reverse.dropWhile q).reverse := by
        rw [List.takeWhile_append_dropWhile]
    _ = (m.reverse.dropWhile q).reverse ++ (m.reverse.takeWhile q).reverse := by
        rw [List.reverse_append]
  · intro c hc
    rw [List.mem_reverse] at hc
    exact List.mem_takeWhile_imp hc

theorem pyStripChars_head (l : List Char) (c : Char)
    (h : (pyStripChars l).head? = some c) : isWs c = false := by
  obtain ⟨hw, -⟩ := dropTail_decomp isWs (l.dropWhile isWs)
  have hpre : l.dropWhile isWs = pyStripChars l ++ ((l.dropWhile isWs).reverse.takeWhile isWs).reverse := hw
  apply dropWhile_head_not isWs l c
  rw [hpre]
  cases hs : pyStripChars l with
  | nil => rw [hs] at h; simp at h
  | cons a t =>
    rw [hs] at h
    simp only [List.head?_cons, Option.some.injEq] at h
    subst h
    simp

theorem pyStripChars_getLast (l : List Char) (c : Char)
    (h : (pyStripChars l).getLast? = some c) : isWs c = false := by
  rw [← List.head?_reverse] at h
  have hrev : (pyStripChars l).reverse = (l.dropWhile isWs).reverse.dropWhile isWs := by
    simp [pyStripChars, List.reverse_reverse]
  rw [hrev] at h
  exact dropWhile_head_not isWs _ c h

theorem noEdgeWs_pyStripChars (l : List Char) : noEdgeWs (pyStripChars l) = true := by
  unfold noEdgeWs
  have h1 : (match (pyStripChars l).head? with
      | some c => !isWs c
      | none => true) = true := by
    cases hh : (pyStripChars l).head? with
    | none => rfl
    | some c => simp [pyStripChars_head l c hh]
  have h2 : (match (pyStripChars l).getLast? with
      | some c => !isWs c
      | none => true) = true := by
    cases hh : (pyStripChars l).getLast? with
    | none => rfl
    | some c => simp [pyStripChars_getLast l c hh]
  rw [h1, h2]
  rfl

theorem pyStripChars_length_le (l : List Char) : (pyStripChars l).length ≤ l.length := by
  unfold pyStripChars
  rw [List.length_reverse]
  calc ((l.dropWhile isWs).reverse.dropWhile isWs).length
      ≤ (l.dropWhile isWs).reverse.length := dropWhile_length_le _ _
    _ = (l.dropWhile isWs).length := List.length_reverse _
    _ ≤ l.length := dropWhile_length_le _ _

theorem pyStripChars_ne_nil (l : List Char) (c : Char) (h : l.head? = some c)
    (hc : isWs c = false) : pyStripChars l ≠ [] := by
  have hself : l.dropWhile isWs = l := dropWhile_eq_self_of_head isWs l c h hc
  unfold pyStripChars
  rw [hself]
  intro hnil
  rw [List.reverse_eq_nil_iff, List.dropWhile_eq_nil_iff] at hnil
  have hcm : c ∈ l.reverse := by
    cases l with
    | nil => simp at h
    | cons a t =>
      simp only [List.head?_cons, Option.some.injEq] at h
      subst h
      simp
  have := hnil c hcm
  rw [hc] at this
  exact Bool.false_ne_true this

theorem pyStripChars_eq_self (u : List Char)
    (h1 : ∀ c, u.head? = some c → isWs c = false)
    (h2 : ∀ c, u.getLast? = some c → isWs c = false) : pyStripChars u = u := by
  cases hu : u.head? with
  | none =>
    have hn : u = [] := by
      cases u with
      | nil => rfl
      | cons a t => simp at hu
    rw [hn]
    rfl
  | some c =>
    have hd : u.dropWhile isWs = u := dropWhile_eq_self_of_head isWs u c hu (h1 c hu)
    unfold pyStripChars
    rw [hd]
    cases hg : u.getLast? with
    | none =>
      rw [List.getLast?_eq_none_iff] at hg
      rw [hg] at hu
      simp at hu
    | some d =>
      have hrev : u.reverse.head? = some d := by
        rw [List.head?_reverse]
        exact hg
      rw [dropWhile_eq_self_of_head isWs _ d hrev (h2 d hg), List.reverse_reverse]

theorem pyStripChars_idem (l : List Char) :
    pyStripChars (pyStripChars l) = pyStripChars l :=
  pyStripChars_eq_self (pyStripChars l)
    (fun c h => pyStripChars_head l c h)
    (fun c h => pyStripChars_getLast l c h)

theorem head?_take (l : List α) (n : Nat) (h : 0 < n) : (l.take n).head? = l.head? := by
  cases l with
  | nil => simp
  | cons a t =>
    cases n with
    | zero => omega
    | succ n => simp

theorem wordCut_head? (l : List Char) (c : Char) (limit : Nat)
    (hl : l.head? = some c) (hpos : 0 < limit) : (wordCut l limit).head? = some c := by
  unfold wordCut
  by_cases hlen : l.length ≤ limit
  · rw [if_pos hlen]
    exact hl
  · rw [if_neg hlen]
    simp only
    have hpre : (l.take limit).head? = some c := by
      rw [head?_take l limit hpos]
      exact hl
    by_cases hcut : (dropLastWord (l.take limit)).isEmpty
    · rw [if_pos hcut]
      exact hpre
    · rw [if_neg hcut]
      obtain ⟨hw, -⟩ := dropTail_decomp (fun c => !(isWs c)) (l.take limit)
      have hdec : l.take limit = dropLastWord (l.take limit) ++
          ((l.take limit).reverse.takeWhile (fun c => !(isWs c))).reverse := hw
      cases hs : dropLastWord (l.take limit) with
      | nil => rw [hs] at hcut; simp at hcut
      | cons a t =>
        rw [hdec, hs] at hpre
        simp only [List.cons_append, List.head?_cons, Option.some.injEq] at hpre
        simp [hpre]

theorem dropLastWord_length_le (l : List Char) : (dropLastWord l).length ≤ l.length := by
  unfold dropLastWord
  rw [List.length_reverse]
  calc (l.reverse.dropWhile fun c => !(isWs c)).length
      ≤ l.reverse.length := dropWhile_length_le _ _
    _ = l.length := List.length_reverse _

theorem wordCut_length (l : List Char) (limit : Nat) :
    (wordCut l limit).length ≤ limit ∨ (l.length ≤ limit ∧ wordCut l limit = l) := by
  unfold wordCut
  by_cases hlen : l.length ≤ limit
  · right
    rw [if_pos hlen]
    exact ⟨hlen, rfl⟩
  · left
    rw [if_neg hlen]
    simp only
    have htake : (l.take limit).length ≤ limit := by
      rw [List.length_take]
      omega
    by_cases hcut : (dropLastWord (l.take limit)).isEmpty
    · rw [if_pos hcut]
      exact htake
    · rw [if_neg hcut]
      exact Nat.le_trans (dropLastWord_length_le _) htake

theorem normalizeText_spec (s t : String) (h : normalizeText s = some t) :
    t.data ≠ [] ∧ t.data.length ≤ 280 ∧ noEdgeWs t.data = true ∧
      ((pyStripChars s.data).length ≤ 280 → t.data = pyStripChars s.data) := by
  unfold normalizeText at h
  by_cases hu : (pyStripChars s.data).isEmpty
  · rw [if_pos hu] at h
    exact absurd h (by simp)
  · rw [if_neg hu] at h
    simp only [Option.some.injEq] at h
    have ht : t.data = pyStripChars (wordCut (pyStripChars s.data) 280) := by
      rw [← h]
    have hne : pyStripChars s.data ≠ [] := by
      intro hx
      rw [hx] at hu
      simp at hu
    obtain ⟨c, hc⟩ : ∃ c, (pyStripChars s.data).head? = some c := by
      cases hs : pyStripChars s.data with
      | nil => exact absurd hs hne
      | cons a u => exact ⟨a, by simp⟩
    have hcws : isWs c = false := pyStripChars_head s.data c hc
    have hwh : (wordCut (pyStripChars s.data) 280).head? = some c :=
      wordCut_head? _ c 280 hc (by omega)
    refine ⟨?_, ?_, ?_, ?_⟩
    · rw [ht]
      exact pyStripChars_ne_nil _ c hwh hcws
    · rw [ht]
      rcases wordCut_length (pyStripChars s.data) 280 with hle | ⟨hsl, heq⟩
      · exact Nat.le_trans (pyStripChars_length_le _) hle
      · rw [heq]
        exact Nat.le_trans (pyStripChars_length_le _) hsl
    · rw [ht]
      exact noEdgeWs_pyStripChars _
    · intro hshort
      rw [ht]
      have : wordCut (pyStripChars s.data) 280 = pyStripChars s.data := by
        unfold wordCut
        rw [if_pos hshort]
      rw [this, pyStripChars_idem]

/-! ### Helper lemmas: the extraction worker -/

theorem onePageGo_get? (pn : Nat) (ncs : List NormClaim) :
    ∀ k j, (onePageGo pn k ncs).get? j =
      (ncs.get? j).map fun nc =>
        { id := pyOr nc.id? (defaultClaimId pn (k + j + 1))
          text := nc.text
          status := pyOr nc.status? "uncited" } := by
  induction ncs with
  | nil => intro k j; simp [onePageGo]
  | cons c rest ih =>
    intro k j
    cases j with
    | zero => rfl
    | succ j =>
      simp only [onePageGo, List.get?_cons_succ]
      rw [ih (k + 1) j]
      have harith : k + 1 + j + 1 = k + (j + 1) + 1 := by omega
      rw [harith]

theorem onePage_get? (pn : Nat) (ncs : List NormClaim) (j : Nat) :
    (onePage pn ncs).get? j =
      (ncs.get? j).map fun nc =>
        { id := pyOr nc.id? (defaultClaimId pn (j + 1))
          text := nc.text
          status := pyOr nc.status? "uncited" } := by
  unfold onePage
  rw [onePageGo_get? pn ncs 0 j]
  have : 0 + j + 1 = j + 1 := by omega
  rw [this]

theorem extractClaims_text_origin (llm : Nat → String → List RawLine) (pn : Nat)
    (txt : String) (nc : NormClaim) (h : nc ∈ extractClaimsFromPage llm pn txt) :
    ∃ s, normalizeText s = some nc.text := by
  unfold extractClaimsFromPage at h
  rw [List.mem_filterMap] at h
  obtain ⟨r, -, hr⟩ := h
  cases hrt : r.text? with
  | none => rw [hrt] at hr; simp at hr
  | some t =>
    rw [hrt] at hr
    simp only [Option.map_eq_some'] at hr
    obtain ⟨t2, ht2, hnc⟩ := hr
    refine ⟨t, ?_⟩
    rw [ht2, ← hnc]

/-! ### Claim C7 -/

/-- C7: every claim dictionary produced by the extraction worker for page
`pn` at position `k` (0-based) has: a text that is non-empty, free of edge
whitespace (trimmed) and at most 280 characters (longer texts having been
word-boundary truncated by the normalization); an id defaulting to
`p{pn}_{k+1}` when the LLM omitted it; and a status defaulting to
`"uncited"` when the LLM omitted it. -/
theorem worker_claim_normalization (llm : Nat → String → List RawLine) (pn : Nat)
    (txt : String) (k : Nat) (c : ClaimRec) (nc : NormClaim)
    (hc : (onePage pn (extractClaimsFromPage llm pn txt)).get? k = some c)
    (hnc : (extractClaimsFromPage llm pn txt).get? k = some nc) :
    c.text.data ≠ [] ∧ c.text ≠ "" ∧ c.text.length ≤ 280 ∧ noEdgeWs c.text.data = true ∧
      c.text = nc.text ∧
      (nc.id? = none → c.id = defaultClaimId pn (k + 1)) ∧
      (nc.status? = none → c.status = "uncited") := by
  rw [onePage_get? pn _ k, hnc] at hc
  simp only [Option.map_some', Option.some.injEq] at hc
  have hmem : nc ∈ extractClaimsFromPage llm pn txt := List.get?_mem hnc
  obtain ⟨s, hs⟩ := extractClaims_text_origin llm pn txt nc hmem
  obtain ⟨hne, hlen, hedge, -⟩ := normalizeText_spec s nc.text hs
  have htext : c.text = nc.text := by rw [← hc]
  refine ⟨?_, ?_, ?_, ?_, htext, ?_, ?_⟩
  · rw [htext]; exact hne
  · rw [htext]
    intro hx
    apply hne
    rw [hx]
  · rw [htext]; exact hlen
  · rw [htext]; exact hedge
  · intro hid
    rw [← hc]
    simp [hid, pyOr]
  · intro hst
    rw [← hc]
    simp [hst, pyOr]

/-- Witness for C7: one LLM line with untrimmed text and no id/status yields
the claim `p3_1` / `"Hello world"` / `"uncited"`. -/
theorem worker_claim_normalization_witness :
    let c : ClaimRec := { id := "p3_1", text := "Hello world", status := "uncited" }
    c.text.data ≠ [] ∧ c.text ≠ "" ∧ c.text.length ≤ 280 ∧ noEdgeWs c.text.data = true ∧
      c.text = "Hello world" ∧
      ((none : Option String) = none → c.id = defaultClaimId 3 (0 + 1)) ∧
      ((none : Option String) = none → c.status = "uncited") :=
  worker_claim_normalization llmC7 3 "pg" 0
    { id := "p3_1", text := "Hello world", status := "uncited" }
    { id? := none, text := "Hello world", status? := none }
    (by decide) (by decide)

/-! ### Helper lemmas: buffer-before-emit -/

theorem appendedOk_llmCall (pn : Nat) (seen : List String) (rest : List Action) :
    appendedOk seen (Action.llmCall pn :: rest) = appendedOk seen rest := rfl

theorem appendedOk_touchJob (seen : List String) (rest : List Action) :
    appendedOk seen (Action.touchJob :: rest) = appendedOk seen rest := rfl

theorem appendedOk_bufferAppend (c : ClaimRec) (seen : List String) (rest : List Action) :
    appendedOk seen (Action.bufferAppend c :: rest) = appendedOk (c.id :: seen) rest := rfl

theorem appendedOk_emitClaim (c : ClaimRec) (seen : List String) (rest : List Action) :
    appendedOk seen (Action.emit (Event.claim c) :: rest) =
      (seen.contains c.id && appendedOk seen rest) := rfl

theorem appendedOk_phaseProgress (ph : Phase) (i n ts : Nat) (rest : List Action)
    (seen : List String) :
    appendedOk seen (phaseProgressActions ph i n ts ++ rest) = appendedOk seen rest := rfl

theorem appendedOk_ladder (is : List Nat) (ph : Phase) (n ts : Nat) (rest : List Action)
    (seen : List String) :
    appendedOk seen ((is.flatMap fun i => phaseProgressActions ph i n ts) ++ rest) =
      appendedOk seen rest := by
  induction is with
  | nil => simp
  | cons i is ih =>
    rw [List.flatMap_cons, List.append_assoc, appendedOk_phaseProgress]
    exact ih

theorem appendedOk_claimsBlock (verif : String → Option Verification) (skip : List String)
    (recs : List ClaimRec) (rest : List Action)
    (hrest : ∀ seen2 : List String, appendedOk seen2 rest = true) :
    ∀ seen, appendedOk seen
      ((recs.flatMap fun c =>
        if skip.contains c.id then []
        else [Action.bufferAppend c, Action.emit (Event.claim (mergeVerification verif c))])
        ++ rest) = true := by
  induction recs with
  | nil =>
    intro seen
    simp only [List.flatMap_nil, List.nil_append]
    exact hrest seen
  | cons c recs ih =>
    intro seen
    rw [List.flatMap_cons, List.append_assoc]
    by_cases hskip : skip.contains c.id
    · rw [hskip]
      simp only [if_true, List.nil_append]
      exact ih seen
    · rw [Bool.eq_false_iff.mpr hskip]
      simp only [Bool.false_eq_true, if_false]
      have hblock : ([Action.bufferAppend c,
          Action.emit (Event.claim (mergeVerification verif c))] ++
          ((recs.flatMap fun c =>
            if skip.contains c.id then []
            else [Action.bufferAppend c, Action.emit (Event.claim (mergeVerification verif c))])
            ++ rest)) =
          Action.bufferAppend c :: Action.emit (Event.claim (mergeVerification verif c)) ::
          ((recs.flatMap fun c =>
            if skip.contains c.id then []
            else [Action.bufferAppend c, Action.emit (Event.claim (mergeVerification verif c))])
            ++ rest) := rfl
      rw [hblock, appendedOk_bufferAppend, appendedOk_emitClaim, mergeVerification_id]
      have hcontains : (c.id :: seen).contains c.id = true := by
        simp [List.contains_cons]
      rw [hcontains, Bool.true_and]
      exact ih (c.id :: seen)

theorem appendedOk_extractLoop (verif : String → Option Verification)
    (llm : Nat → String → List RawLine) (skip : List String) (total ts : Nat)
    (order : List (Nat × String)) (rest : List Action)
    (hrest : ∀ seen2 : List String, appendedOk seen2 rest = true) :
    ∀ f seen, appendedOk seen (extractLoop verif llm skip total ts order f ++ rest) = true := by
  induction order with
  | nil =>
    intro f seen
    simp only [extractLoop, List.nil_append]
    exact hrest seen
  | cons page order ih =>
    intro f seen
    obtain ⟨pn, txt⟩ := page
    have hstruct : extractLoop verif llm skip total ts ((pn, txt) :: order) f ++ rest =
        Action.llmCall pn :: Action.touchJob ::
          (((onePage pn (extractClaimsFromPage llm pn txt)).flatMap fun c =>
            if skip.contains c.id then []
            else [Action.bufferAppend c, Action.emit (Event.claim (mergeVerification verif c))])
            ++ (phaseProgressActions Phase.extract (f + 1) total ts
                ++ (extractLoop verif llm skip total ts order (f + 1) ++ rest))) := by
      simp [extractLoop, List.append_assoc]
    rw [hstruct, appendedOk_llmCall, appendedOk_touchJob]
    apply appendedOk_claimsBlock verif skip _ _ ?_ seen
    intro seen2
    rw [appendedOk_phaseProgress]
    exact ih (f + 1) seen2

/-! ### Claim C2 -/

/-- C2: the live extraction stream never emits a claim event whose id has
not previously been appended to the claim buffer on that trace — every claim
emission is preceded by the append of a claim with the identical id (the
overlay merge preserves the id). -/
theorem buffer_before_emit (pages : List (Nat × String)) (skip : List String)
    (emitParse : Bool) (extractStart : Nat) (verif : String → Option Verification)
    (llm : Nat → String → List RawLine) (order : List (Nat × String)) (ts : Nat) :
    appendedOk []
      (makeLiveStream pages skip emitParse extractStart verif llm order ts) = true := by
  have hdone : ∀ seen2 : List String, appendedOk seen2 [Action.emit Event.done] = true := by
    intro seen2
    rfl
  simp only [makeLiveStream]
  by_cases hep : emitParse
  · rw [if_pos hep, List.append_assoc, appendedOk_ladder]
    exact appendedOk_extractLoop verif llm skip pages.length ts order _ hdone extractStart []
  · rw [if_neg hep, List.nil_append]
    exact appendedOk_extractLoop verif llm skip pages.length ts order _ hdone extractStart []

/-! ### Helper lemmas: claim-id counting -/

theorem claimIdCount_append (i : String) (a b : List Event) :
    claimIdCount i (a ++ b) = claimIdCount i a + claimIdCount i b := by
  simp [claimIdCount, List.countP_append]

theorem claimIdCount_snapActions (i : String) (s : Option ProgressPayload) :
    claimIdCount i (wire (snapActions s)) = 0 := by
  cases s with
  | none => rfl
  | some p =>
    by_cases h : 0 < p.total
    · simp [snapActions, h, wire, claimIdCount, isClaimWithId]
    · simp [snapActions, h, wire, claimIdCount]

theorem claimIdCount_replayActions (i : String) (v : String → Option Verification)
    (bs : List ClaimRec) :
    claimIdCount i (wire (replayActions v bs)) = bs.countP fun c => c.id == i := by
  rw [wire_replayActions]
  unfold claimIdCount
  rw [List.countP_map]
  have hfun : (isClaimWithId i ∘ fun c => Event.claim (replayMerge v c)) =
      fun c : ClaimRec => c.id == i := by
    funext c
    simp [isClaimWithId, replayMerge_id]
  rw [hfun]

theorem countP_id_eq_one (bs : List ClaimRec) (i : String)
    (hnd : (bs.map ClaimRec.id).Nodup) (hi : i ∈ bs.map ClaimRec.id) :
    (bs.countP fun c => c.id == i) = 1 := by
  have h1 : (bs.map ClaimRec.id).count i = 1 := List.count_eq_one_of_mem hnd hi
  rw [List.count_eq_countP, List.countP_map] at h1
  have hfun : ((fun x => x == i) ∘ ClaimRec.id) = fun c : ClaimRec => c.id == i := rfl
  rw [hfun] at h1
  exact h1

theorem wire_claimsBlock (verif : String → Option Verification) (skip : List String)
    (recs : List ClaimRec) :
    wire (recs.flatMap fun c =>
        if skip.contains c.id then []
        else [Action.bufferAppend c, Action.emit (Event.claim (mergeVerification verif c))]) =
      (recs.filter fun c => !skip.contains c.id).map fun c =>
        Event.claim (mergeVerification verif c) := by
  induction recs with
  | nil => rfl
  | cons c recs ih =>
    rw [List.flatMap_cons, wire_append, ih]
    by_cases hskip : skip.contains c.id = true
    · rw [if_pos hskip, List.filter_cons]
      have hb : (!skip.contains c.id) = false := by rw [hskip]; rfl
      rw [hb]
      rfl
    · have hskipf : skip.contains c.id = false := by
        revert hskip
        cases skip.contains c.id <;> simp
      rw [if_neg hskip, List.filter_cons, hskipf]
      rfl

theorem claimIdCount_claimsBlock (i : String) (verif : String → Option Verification)
    (skip : List String) (recs : List ClaimRec) (hi : skip.contains i = true) :
    claimIdCount i (wire (recs.flatMap fun c =>
        if skip.contains c.id then []
        else [Action.bufferAppend c, Action.emit (Event.claim (mergeVerification verif c))])) = 0 := by
  rw [wire_claimsBlock]
  unfold claimIdCount
  rw [List.countP_map, List.countP_eq_zero]
  intro c hc
  rw [List.mem_filter] at hc
  have hns : skip.contains c.id = false := by
    rcases hc with ⟨-, h2⟩
    simpa using h2
  have hne : c.id ≠ i := by
    intro he
    rw [he, hi] at hns
    exact absurd hns (by decide)
  simp [isClaimWithId, mergeVerification_id, hne]

theorem wire_ladder (is : List Nat) (ph : Phase) (n ts : Nat) :
    wire (is.flatMap fun i => phaseProgressActions ph i n ts) =
      is.map fun i => Event.progress { phase := ph, processed := i, total := n, ts := ts } := by
  induction is with
  | nil => rfl
  | cons i is ih =>
    rw [List.flatMap_cons, wire_append, ih]
    rfl

theorem claimIdCount_extractLoop (i : String) (verif : String → Option Verification)
    (llm : Nat → String → List RawLine) (skip : List String) (total ts : Nat)
    (order : List (Nat × String)) (hi : skip.contains i = true) :
    ∀ f, claimIdCount i (wire (extractLoop verif llm skip total ts order f)) = 0 := by
  induction order with
  | nil => intro f; rfl
  | cons page order ih =>
    intro f
    obtain ⟨pn, txt⟩ := page
    have hstruct : extractLoop verif llm skip total ts ((pn, txt) :: order) f =
        Action.llmCall pn :: Action.touchJob ::
          (((onePage pn (extractClaimsFromPage llm pn txt)).flatMap fun c =>
            if skip.contains c.id then []
            else [Action.bufferAppend c, Action.emit (Event.claim (mergeVerification verif c))])
            ++ (phaseProgressActions Phase.extract (f + 1) total ts
                ++ extractLoop verif llm skip total ts order (f + 1))) := by
      simp [extractLoop, List.append_assoc]
    rw [hstruct]
    have hwire : wire (Action.llmCall pn :: Action.touchJob ::
        (((onePage pn (extractClaimsFromPage llm pn txt)).flatMap fun c =>
          if skip.contains c.id then []
          else [Action.bufferAppend c, Action.emit (Event.claim (mergeVerification verif c))])
          ++ (phaseProgressActions Phase.extract (f + 1) total ts
              ++ extractLoop verif llm skip total ts order (f + 1)))) =
        wire ((onePage pn (extractClaimsFromPage llm pn txt)).flatMap fun c =>
          if skip.contains c.id then []
          else [Action.bufferAppend c, Action.emit (Event.claim (mergeVerification verif c))])
          ++ (wire (phaseProgressActions Phase.extract (f + 1) total ts)
              ++ wire (extractLoop verif llm skip total ts order (f + 1))) := by
      show wire (((onePage pn (extractClaimsFromPage llm pn txt)).flatMap fun c =>
          if skip.contains c.id then []
          else [Action.bufferAppend c, Action.emit (Event.claim (mergeVerification verif c))])
          ++ (phaseProgressActions Phase.extract (f + 1) total ts
              ++ extractLoop verif llm skip total ts order (f + 1))) = _
      rw [wire_append, wire_append]
    rw [hwire, claimIdCount_append, claimIdCount_append]
    rw [claimIdCount_claimsBlock i verif skip _ hi, ih (f + 1)]
    rfl

theorem claimIdCount_makeLiveStream (i : String) (pages : List (Nat × String))
    (skip : List String) (emitParse : Bool) (extractStart : Nat)
    (verif : String → Option Verification) (llm : Nat → String → List RawLine)
    (order : List (Nat × String)) (ts : Nat) (hi : skip.contains i = true) :
    claimIdCount i (wire (makeLiveStream pages skip emitParse extractStart verif llm order ts)) = 0 := by
  simp only [makeLiveStream]
  rw [wire_append, wire_append, claimIdCount_append, claimIdCount_append]
  rw [claimIdCount_extractLoop i verif llm skip pages.length ts order hi extractStart]
  have hparse : claimIdCount i (wire (if emitParse then
      (List.range (pages.length + 1)).flatMap fun j =>
        phaseProgressActions Phase.parse j pages.length ts
      else [])) = 0 := by
    by_cases hep : emitParse
    · rw [if_pos hep, wire_ladder]
      unfold claimIdCount
      rw [List.countP_map]
      simp [isClaimWithId, Function.comp]
    · rw [if_neg hep]
      rfl
  rw [hparse]
  rfl

/-! ### Claim C1 -/

/-- C1: on a reconnect (any state with the job present and, per the data
model, pairwise-distinct buffered claim ids), each claim id already present
in the buffer at connection start is emitted exactly once on that
connection: once by the replay loop, and never by the extractor, whose skip
set contains every buffered id. -/
theorem reconnect_at_most_once (inp : StreamInput) (hjob : inp.jobPresent = true)
    (hnd : (inp.buffered.map ClaimRec.id).Nodup) (i : String)
    (hi : i ∈ inp.buffered.map ClaimRec.id) :
    claimIdCount i (wire (streamClaims inp)) = 1 := by
  have hcontains : (inp.buffered.map ClaimRec.id).contains i = true :=
    List.elem_eq_true_of_mem hi
  have hjobneg : ¬ inp.jobPresent = false := by
    rw [hjob]
    simp
  have hpre : claimIdCount i
      (wire (snapActions inp.snap ++ replayActions inp.verif inp.buffered)) = 1 := by
    rw [wire_append, claimIdCount_append, claimIdCount_snapActions,
        claimIdCount_replayActions, countP_id_eq_one inp.buffered i hnd hi]
  have hdone : claimIdCount i (wire [Action.emit Event.done]) = 0 := rfl
  simp only [streamClaims]
  rw [if_neg hjobneg]
  by_cases hfin : isFinishedStatus inp.status = true
  · rw [if_pos hfin, wire_append, claimIdCount_append, hpre, hdone]
  · rw [if_neg hfin]
    cases hblob : inp.blob with
    | none =>
      show claimIdCount i (wire ((snapActions inp.snap ++
        replayActions inp.verif inp.buffered) ++ [Action.emit Event.done])) = 1
      rw [wire_append, claimIdCount_append, hpre, hdone]
    | some doc =>
      show claimIdCount i (wire (if (extractPagesTexts doc).isEmpty then
          (snapActions inp.snap ++ replayActions inp.verif inp.buffered) ++
            [Action.emit Event.done]
        else (snapActions inp.snap ++ replayActions inp.verif inp.buffered) ++
          makeLiveStream (extractPagesTexts doc) (inp.buffered.map ClaimRec.id)
            (computeEmitParse inp.snap) 0 inp.verif inp.llm inp.order inp.ts)) = 1
      by_cases hpg : (extractPagesTexts doc).isEmpty = true
      · rw [if_pos hpg, wire_append, claimIdCount_append, hpre, hdone]
      · rw [if_neg hpg, wire_append, claimIdCount_append, hpre,
          claimIdCount_makeLiveStream i (extractPagesTexts doc)
            (inp.buffered.map ClaimRec.id) (computeEmitParse inp.snap) 0
            inp.verif inp.llm inp.order inp.ts hcontains]

/-- Witness for C1: a buffered claim `a` on a streaming job whose live
extraction returns `a` again (skipped) plus a fresh claim — `a` is emitted
exactly once. -/
theorem reconnect_at_most_once_witness :
    claimIdCount "a" (wire (streamClaims sampleC1Input)) = 1 :=
  reconnect_at_most_once sampleC1Input rfl (by decide) "a" (by decide)

/-! ### Helper lemmas: passivity and done counting -/

theorem replayActions_passive (v : String → Option Verification) (bs : List ClaimRec) :
    (replayActions v bs).all isPassiveAction = true := by
  induction bs with
  | nil => rfl
  | cons c bs ih =>
    rw [replayActions_cons]
    simp only [List.all_cons, ih]
    rfl

theorem snapActions_passive (s : Option ProgressPayload) :
    (snapActions s).all isPassiveAction = true := by
  cases s with
  | none => rfl
  | some p =>
    by_cases h : 0 < p.total
    · simp [snapActions, h, isPassiveAction]
    · simp [snapActions, h]

theorem wire_snapActions_of_pos (s : Option ProgressPayload)
    (hs : ∀ p, s = some p → 0 < p.total) :
    wire (snapActions s) = snapEvents s := by
  cases s with
  | none => rfl
  | some p =>
    simp only [snapActions, if_pos (hs p rfl)]
    rfl

/-! ### Claim C3 -/

/-- C3: a stream against a finished job emits the snapshot progress event
(when a snapshot exists — per the repository contract it has positive
total), then the replayed buffered claims in order, then exactly one done
event; the trace contains only passive actions — no LLM call, no buffer
append, no progress persistence, no job touch — so extraction never
starts. -/
theorem finished_job_short_circuit (inp : StreamInput) (hjob : inp.jobPresent = true)
    (hfin : isFinishedStatus inp.status = true)
    (hsnap : ∀ p, inp.snap = some p → 0 < p.total) :
    streamClaims inp =
      (snapActions inp.snap ++ replayActions inp.verif inp.buffered) ++
        [Action.emit Event.done] ∧
    wire (streamClaims inp) =
      (snapEvents inp.snap ++
       (inp.buffered.map fun c => Event.claim (replayMerge inp.verif c))) ++ [Event.done] ∧
    (streamClaims inp).all isPassiveAction = true ∧
    (wire (streamClaims inp)).countP isDoneEvent = 1 := by
  have hjobneg : ¬ inp.jobPresent = false := by
    rw [hjob]
    simp
  have h1 : streamClaims inp =
      (snapActions inp.snap ++ replayActions inp.verif inp.buffered) ++
        [Action.emit Event.done] := by
    simp only [streamClaims]
    rw [if_neg hjobneg, if_pos hfin]
  have h2 : wire (streamClaims inp) =
      (snapEvents inp.snap ++
       (inp.buffered.map fun c => Event.claim (replayMerge inp.verif c))) ++ [Event.done] := by
    rw [h1, wire_append, wire_append, wire_snapActions_of_pos inp.snap hsnap,
      wire_replayActions]
    rfl
  refine ⟨h1, h2, ?_, ?_⟩
  · rw [h1]
    simp only [List.all_append]
    rw [snapActions_passive, replayActions_passive]
    rfl
  · rw [h2]
    simp only [List.countP_append]
    have hs0 : (snapEvents inp.snap).countP isDoneEvent = 0 := by
      cases inp.snap with
      | none => rfl
      | some p => rfl
    rw [hs0, List.countP_map]
    have hm0 : (inp.buffered.countP (isDoneEvent ∘ fun c =>
        Event.claim (replayMerge inp.verif c))) = 0 := by
      rw [List.countP_eq_zero]
      intro c hc
      simp [Function.comp, isDoneEvent]
    rw [hm0]
    rfl

/-- Witness for C3 at a concrete finished job with a snapshot and one
buffered claim. -/
theorem finished_job_short_circuit_witness :
    wire (streamClaims sampleC3Input) =
      (snapEvents sampleC3Input.snap ++
       (sampleC3Input.buffered.map fun c =>
         Event.claim (replayMerge sampleC3Input.verif c))) ++ [Event.done] :=
  (finished_job_short_circuit sampleC3Input rfl (by decide)
    (by
      intro p hp
      have hse : sampleC3Input.snap =
          some { phase := Phase.extract, processed := 2, total := 2, ts := 9 } := rfl
      rw [hse] at hp
      injection hp with h3
      rw [← h3]
      decide)).2.1

/-! ### Claim C5 -/

/-- C5 counterexample: a streaming job whose PDF blob is absent ends with a
single done event and no error event, refuting the claim that the
missing-blob case emits an error followed by done. -/
theorem missing_blob_counterexample :
    wire (streamClaims sampleC5Input) = [Event.done] ∧
    (wire (streamClaims sampleC5Input)).countP isErrorEvent = 0 := by
  decide

/-- C5 amended: for an absent Job record, `stream_claims` emits exactly the
error event with message "Unknown or expired jobId" followed by done and
never raises (the embedding is total); for a present job whose stored PDF
blob is absent, it emits any snapshot and replay events followed by a single
done, with no error event on the wire. -/
theorem error_envelope_amended :
    (∀ inp : StreamInput, inp.jobPresent = false →
      wire (streamClaims inp) =
        [Event.error "Unknown or expired jobId", Event.done]) ∧
    (∀ inp : StreamInput, inp.jobPresent = true →
      isFinishedStatus inp.status = false → inp.blob = none →
      wire (streamClaims inp) =
        (wire (snapActions inp.snap) ++
          (inp.buffered.map fun c => Event.claim (replayMerge inp.verif c))) ++
          [Event.done] ∧
      (wire (streamClaims inp)).countP isErrorEvent = 0) := by
  constructor
  · intro inp h
    simp only [streamClaims]
    rw [if_pos h]
    rfl
  · intro inp hjob hfin hblob
    have hjobneg : ¬ inp.jobPresent = false := by
      rw [hjob]
      simp
    have hfinneg : ¬ isFinishedStatus inp.status = true := by
      rw [hfin]
      simp
    have heq : wire (streamClaims inp) =
        (wire (snapActions inp.snap) ++
          (inp.buffered.map fun c => Event.claim (replayMerge inp.verif c))) ++
          [Event.done] := by
      simp only [streamClaims]
      rw [if_neg hjobneg, if_neg hfinneg, hblob]
      show wire ((snapActions inp.snap ++ replayActions inp.verif inp.buffered) ++
        [Action.emit Event.done]) = _
      rw [wire_append, wire_append, wire_replayActions]
      rfl
    refine ⟨heq, ?_⟩
    rw [heq]
    simp only [List.countP_append]
    have h1 : (wire (snapActions inp.snap)).countP isErrorEvent = 0 := by
      cases hs : inp.snap with
      | none => rfl
      | some p =>
        by_cases hp : 0 < p.total
        · simp [snapActions, hp, wire, isErrorEvent]
        · simp [snapActions, hp, wire]
    have h2 : (inp.buffered.map fun c =>
        Event.claim (replayMerge inp.verif c)).countP isErrorEvent = 0 := by
      rw [List.countP_map, List.countP_eq_zero]
      intro c hc
      simp [Function.comp, isErrorEvent]
    rw [h1, h2]
    rfl

/-- Witness for the amended C5 at the concrete unknown-job state. -/
theorem error_envelope_amended_witness :
    wire (streamClaims sampleC5UnknownInput) =
      [Event.error "Unknown or expired jobId", Event.done] :=
  error_envelope_amended.1 sampleC5UnknownInput rfl

/-! ### Helper lemmas: progress triples of the live stream -/

theorem progressTriples_claimMap (evs : List ClaimRec)
    (f : ClaimRec → ClaimRec) :
    progressTriples (evs.map fun c => Event.claim (f c)) = [] := by
  induction evs with
  | nil => rfl
  | cons c evs ih =>
    simp only [List.map_cons]
    show progressTriples (Event.claim (f c) :: _) = []
    simp only [progressTriples, List.filterMap_cons]
    exact ih

theorem progressTriples_ladderWire (is : List Nat) (ph : Phase) (n ts : Nat) :
    progressTriples (wire (is.flatMap fun i => phaseProgressActions ph i n ts)) =
      is.map fun i => (ph, i, n) := by
  rw [wire_ladder]
  induction is with
  | nil => rfl
  | cons i is ih =>
    simp only [List.map_cons]
    show progressTriples (Event.progress _ :: _) = _
    simp only [progressTriples, List.filterMap_cons] at ih ⊢
    rw [ih]
    rfl

theorem progressTriples_extractLoop (verif : String → Option Verification)
    (llm : Nat → String → List RawLine) (skip : List String) (total ts : Nat) :
    ∀ (order : List (Nat × String)) (f : Nat),
      progressTriples (wire (extractLoop verif llm skip total ts order f)) =
        (List.range' (f + 1) order.length).map fun k => (Phase.extract, k, total) := by
  intro order
  induction order with
  | nil => intro f; rfl
  | cons page order ih =>
    intro f
    obtain ⟨pn, txt⟩ := page
    have hstruct : extractLoop verif llm skip total ts ((pn, txt) :: order) f =
        Action.llmCall pn :: Action.touchJob ::
          (((onePage pn (extractClaimsFromPage llm pn txt)).flatMap fun c =>
            if skip.contains c.id then []
            else [Action.bufferAppend c, Action.emit (Event.claim (mergeVerification verif c))])
            ++ (phaseProgressActions Phase.extract (f + 1) total ts
                ++ extractLoop verif llm skip total ts order (f + 1))) := by
      simp [extractLoop, List.append_assoc]
    rw [hstruct]
    have hwire : wire (Action.llmCall pn :: Action.touchJob ::
        (((onePage pn (extractClaimsFromPage llm pn txt)).flatMap fun c =>
          if skip.contains c.id then []
          else [Action.bufferAppend c, Action.emit (Event.claim (mergeVerification verif c))])
          ++ (phaseProgressActions Phase.extract (f + 1) total ts
              ++ extractLoop verif llm skip total ts order (f + 1)))) =
        wire ((onePage pn (extractClaimsFromPage llm pn txt)).flatMap fun c =>
          if skip.contains c.id then []
          else [Action.bufferAppend c, Action.emit (Event.claim (mergeVerification verif c))])
          ++ (wire (phaseProgressActions Phase.extract (f + 1) total ts)
              ++ wire (extractLoop verif llm skip total ts order (f + 1))) := by
      show wire (((onePage pn (extractClaimsFromPage llm pn txt)).flatMap fun c =>
          if skip.contains c.id then []
          else [Action.bufferAppend c, Action.emit (Event.claim (mergeVerification verif c))])
          ++ (phaseProgressActions Phase.extract (f + 1) total ts
              ++ extractLoop verif llm skip total ts order (f + 1))) = _
      rw [wire_append, wire_append]
    rw [hwire, progressTriples_append, progressTriples_append]
    rw [wire_claimsBlock, progressTriples_claimMap]
    rw [ih (f + 1)]
    show ([] : List (Phase × Nat × Nat)) ++
        ((Phase.extract, f + 1, total) ::
          ((List.range' (f + 1 + 1) order.length).map fun k => (Phase.extract, k, total))) = _
    rw [List.nil_append]
    show _ = (List.range' (f + 1) (order.length + 1)).map fun k => (Phase.extract, k, total)
    rw [List.range'_succ]
    rfl

theorem progressTriples_makeLiveStream (pages : List (Nat × String)) (skip : List String)
    (emitParse : Bool) (extractStart : Nat) (verif : String → Option Verification)
    (llm : Nat → String → List RawLine) (order : List (Nat × String)) (ts : Nat) :
    progressTriples (wire (makeLiveStream pages skip emitParse extractStart verif llm order ts)) =
      (if emitParse then
        (List.range (pages.length + 1)).map fun i => (Phase.parse, i, pages.length)
       else []) ++
      ((List.range' (extractStart + 1) order.length).map fun k =>
        (Phase.extract, k, pages.length)) := by
  simp only [makeLiveStream]
  rw [wire_append, wire_append, progressTriples_append, progressTriples_append]
  rw [progressTriples_extractLoop verif llm skip pages.length ts order extractStart]
  have hdone : progressTriples (wire [Action.emit Event.done]) = [] := rfl
  rw [hdone, List.append_nil]
  by_cases hep : emitParse
  · rw [if_pos hep, if_pos hep, progressTriples_ladderWire]
  · rw [if_neg hep, if_neg hep]
    rfl

theorem findSome?_append_of_none {α β : Type} (f : α → Option β) (l1 l2 : List α)
    (h : ∀ x ∈ l1, f x = none) :
    (l1 ++ l2).findSome? f = l2.findSome? f := by
  induction l1 with
  | nil => rfl
  | cons a t ih =>
    rw [List.cons_append, List.findSome?_cons]
    rw [h a (List.mem_cons_self a t)]
    exact ih fun x hx => h x (List.mem_cons_of_mem a hx)

/-! ### Claim C6 -/

/-- C6 counterexample: on a reconnect whose snapshot is extract 2/3, the
wire carries the extract-phase processed values 2 (the snapshot replay)
followed by 1, 2, 3 — the live extract counter restarted at 0 instead of at
the snapshot's processed value 2, because `stream_claims` never passes
`extract_start_processed`. -/
theorem extract_resume_counterexample :
    extractProcessedValues (wire (streamClaims sampleC6Input)) = [2, 1, 2, 3] ∧
    sampleC6Input.snap =
      some { phase := Phase.extract, processed := 2, total := 3, ts := 9 } := by
  constructor
  · decide
  · rfl

/-- C6 amended: the parse-suppression half of the claim holds — when the
snapshot has phase extract, every progress event of the connection is
extract-phase (the parse ladder is suppressed, `emit_parse` being false
exactly then) — but the extract-phase counter always starts at 0, not at the
snapshot's processed value: the live stream's first extract progress event
carries processed = 1 whenever a page completes, and `stream_claims` invokes
the live stream with `extract_start_processed = 0`. -/
theorem resume_flags_amended :
    (∀ (inp : StreamInput) (p : ProgressPayload), inp.snap = some p →
      p.phase = Phase.extract → inp.jobPresent = true →
      ∀ t ∈ progressTriples (wire (streamClaims inp)), t.1 = Phase.extract) ∧
    (∀ (pages : List (Nat × String)) (skip : List String) (ep : Bool)
      (verif : String → Option Verification) (llm : Nat → String → List RawLine)
      (order : List (Nat × String)) (ts : Nat),
      firstExtractProcessed (wire (makeLiveStream pages skip ep 0 verif llm order ts)) =
        if order.isEmpty then none else some 1) ∧
    (∀ (inp : StreamInput) (doc : Option (List String)), inp.jobPresent = true →
      isFinishedStatus inp.status = false → inp.blob = some doc →
      (extractPagesTexts doc).isEmpty = false →
      streamClaims inp =
        (snapActions inp.snap ++ replayActions inp.verif inp.buffered) ++
          makeLiveStream (extractPagesTexts doc) (inp.buffered.map ClaimRec.id)
            (computeEmitParse inp.snap) 0 inp.verif inp.llm inp.order inp.ts) := by
  refine ⟨?_, ?_, ?_⟩
  · intro inp p hsnap hphase hjob t ht
    have hjobneg : ¬ inp.jobPresent = false := by
      rw [hjob]
      simp
    have hpre : ∀ u ∈ progressTriples
        (wire (snapActions inp.snap ++ replayActions inp.verif inp.buffered)),
        u.1 = Phase.extract := by
      intro u hu
      rw [wire_append, progressTriples_append, List.mem_append] at hu
      rcases hu with hu | hu
      · rw [hsnap] at hu
        by_cases hp : 0 < p.total
        · simp only [snapActions, if_pos hp] at hu
          have : progressTriples (wire [Action.emit (Event.progress p)]) =
              [(p.phase, p.processed, p.total)] := rfl
          rw [this] at hu
          simp only [List.mem_singleton] at hu
          rw [hu, hphase]
        · simp only [snapActions, if_neg hp] at hu
          exact absurd hu (by simp [wire, progressTriples])
      · rw [wire_replayActions, progressTriples_claimMap] at hu
        exact absurd hu (by simp)
    have hdone : progressTriples (wire [Action.emit Event.done]) = [] := rfl
    simp only [streamClaims] at ht
    rw [if_neg hjobneg] at ht
    by_cases hfin : isFinishedStatus inp.status = true
    · rw [if_pos hfin, wire_append, progressTriples_append, hdone,
        List.append_nil] at ht
      exact hpre t ht
    · rw [if_neg hfin] at ht
      cases hblob : inp.blob with
      | none =>
        rw [hblob] at ht
        have hts : progressTriples (wire ((snapActions inp.snap ++
            replayActions inp.verif inp.buffered) ++ [Action.emit Event.done])) =
            progressTriples (wire (snapActions inp.snap ++
              replayActions inp.verif inp.buffered)) := by
          rw [wire_append, progressTriples_append, hdone, List.append_nil]
        rw [hts] at ht
        exact hpre t ht
      | some doc =>
        rw [hblob] at ht
        by_cases hpg : (extractPagesTexts doc).isEmpty = true
        · have hts : progressTriples (wire (if (extractPagesTexts doc).isEmpty then
              (snapActions inp.snap ++ replayActions inp.verif inp.buffered) ++
                [Action.emit Event.done]
            else (snapActions inp.snap ++ replayActions inp.verif inp.buffered) ++
              makeLiveStream (extractPagesTexts doc) (inp.buffered.map ClaimRec.id)
                (computeEmitParse inp.snap) 0 inp.verif inp.llm inp.order inp.ts)) =
              progressTriples (wire (snapActions inp.snap ++
                replayActions inp.verif inp.buffered)) := by
            rw [if_pos hpg, wire_append, progressTriples_append, hdone, List.append_nil]
          rw [hts] at ht
          exact hpre t ht
        · have hep : computeEmitParse inp.snap = false := by
            rw [hsnap]
            simp [computeEmitParse, hphase]
          have hts : progressTriples (wire (if (extractPagesTexts doc).isEmpty then
              (snapActions inp.snap ++ replayActions inp.verif inp.buffered) ++
                [Action.emit Event.done]
            else (snapActions inp.snap ++ replayActions inp.verif inp.buffered) ++
              makeLiveStream (extractPagesTexts doc) (inp.buffered.map ClaimRec.id)
                (computeEmitParse inp.snap) 0 inp.verif inp.llm inp.order inp.ts)) =
              progressTriples (wire (snapActions inp.snap ++
                replayActions inp.verif inp.buffered)) ++
              ((List.range' 1 inp.order.length).map fun k =>
                (Phase.extract, k, (extractPagesTexts doc).length)) := by
            rw [if_neg hpg, wire_append, progressTriples_append,
              progressTriples_makeLiveStream, hep, if_neg (by simp)]
            rw [List.nil_append]
          rw [hts, List.mem_append] at ht
          rcases ht with ht | ht
          · exact hpre t ht
          · rw [List.mem_map] at ht
            obtain ⟨k, -, hk⟩ := ht
            rw [← hk]
  · intro pages skip ep verif llm order ts
    unfold firstExtractProcessed
    rw [progressTriples_makeLiveStream]
    have hladder : ∀ x ∈ (if ep then
        (List.range (pages.length + 1)).map fun i => (Phase.parse, i, pages.length)
        else []), (fun t : Phase × Nat × Nat =>
          match t.1 with
          | Phase.extract => some t.2.1
          | Phase.parse => none) x = none := by
      intro x hx
      by_cases hep : ep
      · rw [if_pos hep] at hx
        rw [List.mem_map] at hx
        obtain ⟨i, -, hi⟩ := hx
        rw [← hi]
      · rw [if_neg hep] at hx
        exact absurd hx (by simp)
    rw [findSome?_append_of_none _ _ _ hladder]
    cases order with
    | nil => rfl
    | cons page rest =>
      have hlen : (page :: rest).length = rest.length + 1 := rfl
      rw [hlen, List.range'_succ, List.map_cons, List.findSome?_cons]
      rfl
  · intro inp doc hjob hfin hblob hpg
    have hjobneg : ¬ inp.jobPresent = false := by
      rw [hjob]
      simp
    have hfinneg : ¬ isFinishedStatus inp.status = true := by
      rw [hfin]
      simp
    have hpgneg : ¬ (extractPagesTexts doc).isEmpty = true := by
      rw [hpg]
      simp
    simp only [streamClaims]
    rw [if_neg hjobneg, if_neg hfinneg, hblob]
    show (if (extractPagesTexts doc).isEmpty then
        (snapActions inp.snap ++ replayActions inp.verif inp.buffered) ++
          [Action.emit Event.done]
      else (snapActions inp.snap ++ replayActions inp.verif inp.buffered) ++
        makeLiveStream (extractPagesTexts doc) (inp.buffered.map ClaimRec.id)
          (computeEmitParse inp.snap) 0 inp.verif inp.llm inp.order inp.ts) = _
    rw [if_neg hpgneg]

/-- Witness for the amended C6: the reconnect state with an extract 2/3
snapshot drives the live stream with skip ids, suppressed parse ladder and a
zero extract start. -/
theorem resume_flags_amended_witness :
    streamClaims sampleC6Input =
      (snapActions sampleC6Input.snap ++
        replayActions sampleC6Input.verif sampleC6Input.buffered) ++
        makeLiveStream (extractPagesTexts (some ["pg one", "pg two", "pg three"]))
          (sampleC6Input.buffered.map ClaimRec.id)
          (computeEmitParse sampleC6Input.snap) 0 sampleC6Input.verif
          sampleC6Input.llm sampleC6Input.order sampleC6Input.ts :=
  resume_flags_amended.2.2 sampleC6Input (some ["pg one", "pg two", "pg three"])
    rfl (by decide) rfl (by decide)

/-! ### Helper lemmas: progress pair conditions -/

theorem progressStepOk_of_le (ph : Phase) (i j n m : Nat) (h : i ≤ j) :
    progressStepOk (ph, i, n) (ph, j, m) = true := by
  unfold progressStepOk samePhaseMono phasePairOk
  cases ph <;> simp [h]

theorem progressStepOk_parse_left (i n : Nat) (y : Phase × Nat × Nat)
    (hy : y.1 = Phase.extract) : progressStepOk (Phase.parse, i, n) y = true := by
  obtain ⟨ph, a, b⟩ := y
  simp only at hy
  subst hy
  rfl

theorem phasePairOk_parse_left (x2 : Nat × Nat) (y : Phase × Nat × Nat) :
    phasePairOk (Phase.parse, x2) y = true := by
  obtain ⟨ph, a⟩ := y
  cases ph <;> rfl

theorem phasePairOk_right_extract (x : Phase × Nat × Nat) (y2 : Nat × Nat) :
    phasePairOk x (Phase.extract, y2) = true := by
  obtain ⟨ph, a⟩ := x
  cases ph <;> rfl

theorem pairwiseOkB_of_mem (r : α → α → Bool) (l : List α)
    (h : ∀ x ∈ l, ∀ y ∈ l, r x y = true) : pairwiseOkB r l = true := by
  induction l with
  | nil => rfl
  | cons a l ih =>
    simp only [pairwiseOkB, Bool.and_eq_true, List.all_eq_true]
    constructor
    · intro y hy
      exact h a (List.mem_cons_self a l) y (List.mem_cons_of_mem a hy)
    · exact ih fun x hx y hy =>
        h x (List.mem_cons_of_mem a hx) y (List.mem_cons_of_mem a hy)

theorem pairwise_phaseMap (ph : Phase) (n : Nat) (is : List Nat)
    (his : is.Pairwise (· < ·)) :
    pairwiseOkB progressStepOk (is.map fun i => (ph, i, n)) = true := by
  rw [pairwiseOkB_iff, List.pairwise_map]
  exact his.imp fun hab => progressStepOk_of_le ph _ _ n n (Nat.le_of_lt hab)

theorem triples_live_all_extract (pages : List (Nat × String)) (skip : List String)
    (start : Nat) (verif : String → Option Verification)
    (llm : Nat → String → List RawLine) (order : List (Nat × String)) (ts : Nat) :
    ∀ y ∈ progressTriples (wire (makeLiveStream pages skip false start verif llm order ts)),
      y.1 = Phase.extract := by
  intro y hy
  rw [progressTriples_makeLiveStream] at hy
  rw [if_neg (by simp)] at hy
  rw [List.nil_append, List.mem_map] at hy
  obtain ⟨k, -, hk⟩ := hy
  rw [← hk]

theorem npae_live (pages : List (Nat × String)) (skip : List String) (ep : Bool)
    (start : Nat) (verif : String → Option Verification)
    (llm : Nat → String → List RawLine) (order : List (Nat × String)) (ts : Nat) :
    pairwiseOkB phasePairOk
      (progressTriples (wire (makeLiveStream pages skip ep start verif llm order ts))) = true := by
  rw [progressTriples_makeLiveStream, pairwiseOkB_append]
  refine ⟨?_, ?_, ?_⟩
  · by_cases hep : ep
    · rw [if_pos hep]
      apply pairwiseOkB_of_mem
      intro x hx y hy
      rw [List.mem_map] at hx
      obtain ⟨i, -, hi⟩ := hx
      rw [← hi]
      exact phasePairOk_parse_left _ y
    · rw [if_neg hep]
      rfl
  · apply pairwiseOkB_of_mem
    intro x hx y hy
    rw [List.mem_map] at hy
    obtain ⟨k, -, hk⟩ := hy
    rw [← hk]
    exact phasePairOk_right_extract x _
  · intro x hx y hy
    rw [List.mem_map] at hy
    obtain ⟨k, -, hk⟩ := hy
    rw [← hk]
    exact phasePairOk_right_extract x _

/-! ### Claim C4 -/

/-- C4 counterexample: on a reconnect whose persisted snapshot is parse 2/2,
the connection emits progress(parse,2) followed by the replayed parse ladder
restarting at progress(parse,0) — same-phase processed values decrease, so
the claimed per-connection progress property is false on the code. -/
theorem progress_monotone_counterexample :
    c4Ok (wire (streamClaims sampleC4Input)) = false := by
  decide

/-- C4 amended: phase monotonicity holds for every connection — no
parse-phase progress event ever follows an extract-phase one — and the
events emitted by the live stream itself (whose extract counter starts at 0,
with one completion per spawned page task) have non-decreasing same-phase
processed values bounded by total; but across a reconnect the initial
snapshot event may exceed the restarted ladders, as the counterexample
shows. -/
theorem progress_monotone_amended :
    (∀ inp : StreamInput, noParseAfterExtractOk (wire (streamClaims inp)) = true) ∧
    (∀ (pages : List (Nat × String)) (skip : List String) (ep : Bool)
      (verif : String → Option Verification) (llm : Nat → String → List RawLine)
      (order : List (Nat × String)) (ts : Nat), order.length = pages.length →
      c4Ok (wire (makeLiveStream pages skip ep 0 verif llm order ts)) = true) := by
  constructor
  · intro inp
    unfold noParseAfterExtractOk
    by_cases hjob : inp.jobPresent = false
    · simp only [streamClaims]
      rw [if_pos hjob]
      rfl
    · simp only [streamClaims]
      rw [if_neg hjob]
      have hdone : progressTriples (wire [Action.emit Event.done]) = [] := rfl
      have hpre_t : progressTriples (wire (snapActions inp.snap ++
          replayActions inp.verif inp.buffered)) =
          progressTriples (wire (snapActions inp.snap)) := by
        rw [wire_append, progressTriples_append, wire_replayActions,
          progressTriples_claimMap, List.append_nil]
      have hpre_pw : pairwiseOkB phasePairOk
          (progressTriples (wire (snapActions inp.snap))) = true := by
        cases hs : inp.snap with
        | none => rfl
        | some p =>
          by_cases hp : 0 < p.total
          · simp only [snapActions, if_pos hp]
            rfl
          · simp only [snapActions, if_neg hp]
            rfl
      by_cases hfin : isFinishedStatus inp.status = true
      · rw [if_pos hfin, wire_append, progressTriples_append, hdone,
          List.append_nil, hpre_t]
        exact hpre_pw
      · rw [if_neg hfin]
        cases hblob : inp.blob with
        | none =>
          show pairwiseOkB phasePairOk (progressTriples (wire ((snapActions inp.snap ++
            replayActions inp.verif inp.buffered) ++ [Action.emit Event.done]))) = true
          rw [wire_append, progressTriples_append, hdone, List.append_nil, hpre_t]
          exact hpre_pw
        | some doc =>
          show pairwiseOkB phasePairOk (progressTriples (wire
            (if (extractPagesTexts doc).isEmpty then
              (snapActions inp.snap ++ replayActions inp.verif inp.buffered) ++
                [Action.emit Event.done]
            else (snapActions inp.snap ++ replayActions inp.verif inp.buffered) ++
              makeLiveStream (extractPagesTexts doc) (inp.buffered.map ClaimRec.id)
                (computeEmitParse inp.snap) 0 inp.verif inp.llm inp.order inp.ts))) = true
          by_cases hpg : (extractPagesTexts doc).isEmpty = true
          · rw [if_pos hpg, wire_append, progressTriples_append, hdone,
              List.append_nil, hpre_t]
            exact hpre_pw
          · rw [if_neg hpg, wire_append, progressTriples_append, hpre_t,
              pairwiseOkB_append]
            refine ⟨hpre_pw, npae_live _ _ _ _ _ _ _ _, ?_⟩
            intro x hx y hy
            cases hs : inp.snap with
            | none =>
              rw [hs] at hx
              exact absurd hx (by simp [snapActions, wire, progressTriples])
            | some p =>
              rw [hs] at hx
              by_cases hp : 0 < p.total
              · simp only [snapActions, if_pos hp] at hx
                have hxval : x = (p.phase, p.processed, p.total) := by
                  have : progressTriples (wire [Action.emit (Event.progress p)]) =
                      [(p.phase, p.processed, p.total)] := rfl
                  rw [this, List.mem_singleton] at hx
                  exact hx
                cases hph : p.phase with
                | parse =>
                  rw [hxval, hph]
                  exact phasePairOk_parse_left _ y
                | extract =>
                  have hep : computeEmitParse inp.snap = false := by
                    rw [hs]
                    simp [computeEmitParse, hph]
                  rw [hep] at hy
                  have hyext : y.1 = Phase.extract :=
                    triples_live_all_extract (extractPagesTexts doc)
                      (inp.buffered.map ClaimRec.id) 0 inp.verif inp.llm inp.order
                      inp.ts y hy
                  obtain ⟨phy, ay⟩ := y
                  simp only at hyext
                  subst hyext
                  exact phasePairOk_right_extract x ay
              · simp only [snapActions, if_neg hp] at hx
                exact absurd hx (by simp [wire, progressTriples])
  · intro pages skip ep verif llm order ts hlen
    unfold c4Ok
    rw [Bool.and_eq_true]
    constructor
    · rw [progressTriples_makeLiveStream, pairwiseOkB_append]
      refine ⟨?_, ?_, ?_⟩
      · by_cases hep : ep
        · rw [if_pos hep]
          exact pairwise_phaseMap Phase.parse pages.length _
            (List.pairwise_lt_range (pages.length + 1))
        · rw [if_neg hep]
          rfl
      · exact pairwise_phaseMap Phase.extract pages.length _
          (List.pairwise_lt_range' (0 + 1) order.length)
      · intro x hx y hy
        rw [List.mem_map] at hy
        obtain ⟨k, -, hk⟩ := hy
        by_cases hep : ep
        · rw [if_pos hep, List.mem_map] at hx
          obtain ⟨i, -, hi⟩ := hx
          rw [← hi, ← hk]
          exact progressStepOk_parse_left i pages.length _ rfl
        · rw [if_neg hep] at hx
          exact absurd hx (by simp)
    · unfold boundedOk
      rw [progressTriples_makeLiveStream, List.all_eq_true]
      intro t ht
      rw [List.mem_append] at ht
      rcases ht with ht | ht
      · by_cases hep : ep
        · rw [if_pos hep, List.mem_map] at ht
          obtain ⟨i, hi, hit⟩ := ht
          rw [List.mem_range] at hi
          rw [← hit]
          refine decide_eq_true ?_
          simp only
          omega
        · rw [if_neg hep] at ht
          exact absurd ht (by simp)
      · rw [List.mem_map] at ht
        obtain ⟨k, hk, hkt⟩ := ht
        rw [List.mem_range'_1] at hk
        rw [← hkt]
        refine decide_eq_true ?_
        simp only
        omega

/-- Witness for the amended C4: a fresh two-page run satisfies the full
monotone/bounded/phase-order progress property. -/
theorem progress_monotone_amended_witness :
    c4Ok (wire (makeLiveStream [(1, "pg one"), (2, "pg two")] [] true 0 verifNone
      llmNone [(1, "pg one"), (2, "pg two")] 5)) = true :=
  progress_monotone_amended.2 [(1, "pg one"), (2, "pg two")] [] true verifNone
    llmNone [(1, "pg one"), (2, "pg two")] 5 rfl
